import Mathlib

/-!
Shallow embedding of the `runblock` package of the margin repository
(`cli-go/internal/runblock`): the fenced-code-block parser, the block
selector, the execution dispatcher and its interpreter backends.

Strings are modelled as `List Char`; Go's byte offsets coincide with
character offsets on ASCII documents, which is the domain this component
handles.  Machine `int` values (offsets, exit codes) are modelled as `Int`.
Process execution, the 30-second deadline and context cancellation are
modelled by an execution oracle: a function from a program name, argument
list and standard input to an `ExecOutcome` describing which branch of the
Go error analysis after `cmd.Run()` applies.
-/

namespace Margin

/-- Documents and all Go strings are modelled as character lists. -/
abbrev Str := List Char

/-- Coercion from Lean string literals into the model. -/
def strL (s : String) : Str := s.toList

/-- The backtick character, used by the fence pattern. -/
def btick : Char := Char.ofNat 96

/-- Space or horizontal tab, the class `[ \t]` of the fence pattern. -/
def isSpaceTab (c : Char) : Bool := c = ' ' || c = '\t'

/-- Whitespace as stripped by Go `strings.TrimSpace` (ASCII subset:
space, tab, newline, vertical tab, form feed, carriage return). -/
def isGoSpace (c : Char) : Bool :=
  c = ' ' || c = '\t' || c = '\n' || c = '\r' || c = Char.ofNat 11 || c = Char.ofNat 12

/-- Go `strings.TrimSpace` (on the ASCII fragment): strip leading and
trailing whitespace. -/
def goTrimSpace (s : Str) : Str :=
  ((s.dropWhile isGoSpace).reverse.dropWhile isGoSpace).reverse

/-- Go `strings.TrimSuffix(s, "\n")`: drop one trailing newline if present. -/
def trimSuffixNL (s : Str) : Str :=
  match s.reverse with
  | '\n' :: r => r.reverse
  | _ => s

/-- The language-tag character class `[A-Za-z0-9_+-]` of `fenceRe`. -/
def isLangChar (c : Char) : Bool :=
  ('A' ≤ c && c ≤ 'Z') || ('a' ≤ c && c ≤ 'z') || ('0' ≤ c && c ≤ '9') ||
    c = '_' || c = '+' || c = '-'

/-- Per-line matcher for the anchored Go pattern
`(?m)^[ \t]{0,3}BTBTBT([A-Za-z0-9_+-]*)[ \t]*\r?$` (BT a backtick), applied
to one newline-free line; returns the captured language tag on a match.
Because the pattern is anchored at both ends and its character classes are
pairwise disjoint, the regex matches a line exactly when this function
returns `some`. -/
def fenceLineMatch (line : Str) : Option Str :=
  let ws := line.takeWhile isSpaceTab
  if 3 < ws.length then none else
  let rest := line.drop ws.length
  if rest.take 3 = [btick, btick, btick] then
    let r := rest.drop 3
    let lang := r.takeWhile isLangChar
    let r2 := (r.drop lang.length).dropWhile isSpaceTab
    if r2 = [] ∨ r2 = ['\r'] then some lang else none
  else none

/-- Fuel-indexed line splitter; the fuel only serves structural recursion
and is irrelevant once it is at least the input length
(`splitLinesF_fuel`). -/
def splitLinesF : Nat → Str → Nat → List (Nat × Str)
  | 0, _, _ => []
  | fuel + 1, s, pos =>
    match s with
    | [] => []
    | c :: t =>
      let line := (c :: t).takeWhile (fun x => x ≠ '\n')
      (pos, line) :: splitLinesF fuel ((c :: t).drop (line.length + 1)) (pos + line.length + 1)

/-- Split a document into its lines together with the position at which
each line starts; a line is a maximal newline-free run, the terminating
newline is not part of the line.  This is the line decomposition both the
multiline-anchored regex scan and `findClosingFence` iterate over. -/
def splitLinesPos (s : Str) (pos : Nat) : List (Nat × Str) :=
  splitLinesF s.length s pos

/-- All matches of `fenceRe` in document order, as (start offset, language
tag) pairs, mirroring `fenceRe.FindAllStringSubmatchIndex(s, -1)`. -/
def fenceMatches (s : Str) : List (Nat × Str) :=
  (splitLinesPos s 0).filterMap (fun pl => (fenceLineMatch pl.2).map (fun lang => (pl.1, lang)))

/-- Go `findClosingFence(s, from)`: scan the lines of `s[from:]` and return
the start offset of the first line whose `strings.TrimSpace` is exactly
three backticks, or `none` at end of document. -/
def findClosingFence (s : Str) (i : Nat) : Option Nat :=
  ((splitLinesPos (s.drop i) i).find? (fun pl => goTrimSpace pl.2 = strL "```")).map (fun pl => pl.1)

/-- Index of the first newline byte, mirroring
`strings.IndexByte(s, byteNL)` (with -1 rendered as `none`). -/
def idxNL (s : Str) : Option Nat :=
  let line := s.takeWhile (fun c => c ≠ '\n')
  if line.length = s.length then none else some line.length

/-- Go slice `s[a:b]`. -/
def slice (s : Str) (a b : Nat) : Str := (s.take b).drop a

/-- One parsed fenced block.  `FenceEndLine` exists in the Go struct but is
never assigned by the parser, so it carries the zero value. -/
structure Block where
  Language : Str
  Code : Str
  Start : Int
  End : Int
  CodeStart : Int
  CodeEnd : Int
  FenceEndLine : Int := 0
deriving DecidableEq

/-- Body of the per-match loop of `ParseBlocks`: turn one fence match into
a block, or `none` when the match's line has no terminating newline or no
closing fence follows (the `continue` branches of the Go loop). -/
def mkBlock (s : Str) (m : Nat × Str) : Option Block :=
  match idxNL (s.drop m.1) with
  | none => none
  | some lineEnd =>
    let codeStart := m.1 + lineEnd + 1
    match findClosingFence s codeStart with
    | none => none
    | some closingStart =>
      let closingEnd : Nat :=
        match idxNL (s.drop closingStart) with
        | none => s.length
        | some k => closingStart + k + 1
      some { Language := m.2
             Code := trimSuffixNL (slice s codeStart closingStart)
             Start := (m.1 : Int)
             End := (closingEnd : Int)
             CodeStart := (codeStart : Int)
             CodeEnd := (closingStart : Int) }

/-- Go `ParseBlocks` (regex variant): all fence matches, each resolved to a
block when a closing fence exists.  Total on every input. -/
def ParseBlocks (s : Str) : List Block :=
  (fenceMatches s).filterMap (mkBlock s)

/-- One entry of the `candidate` slice built by `PickBlock`: a block index
and its `|block.Start - cursor|` distance. -/
structure Candidate where
  idx : Nat
  dist : Int
deriving DecidableEq

/-- The `if d < 0 then d = -d` absolute value computed by `PickBlock`. -/
def absInt (d : Int) : Int := if d < 0 then -d else d

/-- The containment test of `PickBlock`'s first loop:
`cursor >= b.Start && cursor <= b.End`. -/
def blockContains (cursor : Int) (b : Block) : Bool :=
  decide (cursor ≥ b.Start) && decide (cursor ≤ b.End)

/-- The candidate slice of `PickBlock`, in block order with indices from 0. -/
def candListAux (cursor : Int) : List Block → Nat → List Candidate
  | [], _ => []
  | b :: rest, i => { idx := i, dist := absInt (b.Start - cursor) } :: candListAux cursor rest (i + 1)

/-- The candidate slice of `PickBlock` for the whole block list. -/
def candList (blocks : List Block) (cursor : Int) : List Candidate :=
  candListAux cursor blocks 0

/-- Go `PickBlock`, parameterized by the behavior of `sort.Slice` with the
comparator `cands[i].dist < cands[j].dist`.  `sort.Slice` is an unstable
sort: its contract promises only that the output is a permutation of the
input ordered by the comparator, so the embedding takes the sort as a
parameter and theorems quantify over (or exhibit) sort behaviors satisfying
that contract.  The `none` fallback in the empty-sort-output case is
unreachable for any `sortFn` returning a permutation of its input (Go
indexes `cands[0]` directly). -/
def PickBlockWith (sortFn : List Candidate → List Candidate)
    (blocks : List Block) (cursor : Int) : Option Block :=
  if blocks.isEmpty then none else
  match blocks.find? (blockContains cursor) with
  | some b => some b
  | none =>
    match sortFn (candList blocks cursor) with
    | [] => none
    | c :: _ => blocks.get? c.idx

/-- The contract `sort.Slice` guarantees for the output actually produced
on a given input: a permutation of the input that is nondecreasing in the
comparator's key.  Any such output is a legal behavior of Go's unstable
sort. -/
def SortSliceOutcome (input output : List Candidate) : Prop :=
  input.Perm output ∧ output.Chain' (fun a b => a.dist ≤ b.dist)

/-- Result of one `cmd.Run()` together with the Go error analysis that
follows it.  The constructors encode, in the branch order of the source,
which case applies: `err == nil`; `timeoutCtx.Err()` is deadline exceeded;
`timeoutCtx.Err()` is cancellation; `err` is an `exec.ExitError` carrying
the process exit code; or any other launch/run error.  Each constructor
carries the combined stdout+stderr captured so far. -/
inductive ExecOutcome where
  | success (out : Str)
  | deadline (out : Str)
  | canceled (out : Str)
  | exited (out : Str) (code : Int)
  | failed (out : Str) (notFound : Bool) (msg : Str)
deriving DecidableEq

/-- An execution oracle: what launching a given program with a given
argument list and standard input does on the host.  The dispatcher's 30s
deadline and the ambient cancellation signal are folded into the outcome
(`deadline` / `canceled`), since whichever fires first determines the
branch taken by the Go code. -/
abbrev ExecEnv := Str → List Str → Str → ExecOutcome

/-- A Go error value as observed by `runShell`: its message and whether
`isNotFoundErr` holds for it (`exec.ErrNotFound` or a path error wrapping
`os.ErrNotExist`). -/
structure GoErr where
  notFound : Bool
  msg : Str
deriving DecidableEq

/-- Message text of `fmt.Errorf("command timed out after %s", executionTimeout)`
with the 30-second `executionTimeout` of the source. -/
def timeoutErrMsg : Str := strL "command timed out after 30s"

/-- Go `strings.ToLower` on the ASCII fragment (language tags and shell
names are ASCII). -/
def toLowerStr (s : Str) : Str :=
  s.map (fun c => if 'A' ≤ c ∧ c ≤ 'Z' then Char.ofNat (c.toNat + 32) else c)

/-- Go `runShellWithBinary`: trim the shell name, choose the argument
shape by the lower-cased name (`bash -lc` via wsl, `/C` for cmd, `-lc`
otherwise), run it, and normalize the outcome to
`(output, exitCode, err)`.  On deadline the exit code is 124 but the
returned error is non-nil; on cancellation 130 with the non-nil context
error; an `ExitError` yields the process's own code with a nil error. -/
def runShellWithBinary (exec : ExecEnv) (shell code : Str) : Str × Int × Option GoErr :=
  let s := goTrimSpace shell
  if s = [] then ([], 1, some { notFound := false, msg := strL "empty shell" })
  else
    let low := toLowerStr s
    let args :=
      if low = strL "wsl.exe" ∨ low = strL "wsl" then [strL "bash", strL "-lc", code]
      else if low = strL "cmd.exe" ∨ low = strL "cmd" then [strL "/C", code]
      else [strL "-lc", code]
    match exec s args [] with
    | .success out => (out, 0, none)
    | .deadline out => (out, 124, some { notFound := false, msg := timeoutErrMsg })
    | .canceled out => (out, 130, some { notFound := false, msg := strL "context canceled" })
    | .exited out code => (out, code, none)
    | .failed out nf m => (out, 1, some { notFound := nf, msg := m })

/-- The candidate loop of Go `runShell`, carrying `lastErr`: a nil error
returns the outcome; a not-found error records its message and moves on; any
other error stops with the captured output plus the error text and exit 1;
an exhausted list returns `lastErr` (or the no-shell message when no
candidate was ever tried) with exit 1. -/
def runShellLoop (exec : ExecEnv) (code : Str) : List Str → Str → Str × Int
  | [], lastErr =>
    (if lastErr = [] then strL "no shell found to run block" else lastErr, 1)
  | sh :: rest, _lastErr =>
    match runShellWithBinary exec sh code with
    | (output, exitCode, none) => (output, exitCode)
    | (output, _, some e) =>
      if e.notFound then runShellLoop exec code rest e.msg
      else (output ++ '\n' :: e.msg, 1)

/-- Go `uniqueStrings`: trim each entry, drop empties, keep the first
occurrence of each distinct string. -/
def uniqueStringsAux : List Str → List Str → List Str
  | [], _ => []
  | v :: rest, seen =>
    let v2 := goTrimSpace v
    if v2 = [] then uniqueStringsAux rest seen
    else if v2 ∈ seen then uniqueStringsAux rest seen
    else v2 :: uniqueStringsAux rest (v2 :: seen)

/-- Go `uniqueStrings` entry point. -/
def uniqueStrings (l : List Str) : List Str := uniqueStringsAux l []

/-- Go `shellCandidates`: the configured shell (when non-blank), then
`bash`, `sh`, and on Windows hosts the Git-for-Windows bash paths and
`wsl.exe`, deduplicated.  The host OS test `runtime.GOOS == "windows"` is
a parameter of the model. -/
def shellCandidates (configured : Str) (goosWindows : Bool) : List Str :=
  let base := (if goTrimSpace configured ≠ [] then [configured] else []) ++
    [strL "bash", strL "sh"]
  let all := base ++
    (if goosWindows then
      [strL "C:\\Program Files\\Git\\bin\\bash.exe",
       strL "C:\\Program Files\\Git\\usr\\bin\\bash.exe",
       strL "wsl.exe"]
     else [])
  uniqueStrings all

/-- Go `runShell`: run the candidate loop over `shellCandidates` with an
empty initial `lastErr`. -/
def runShell (exec : ExecEnv) (code shell : Str) (goosWindows : Bool) : Str × Int :=
  runShellLoop exec code (shellCandidates shell goosWindows) []

/-- A file-system event of the python backend's temp-file lifecycle. -/
inductive FsEvent where
  | create (name : Str)
  | removeFile (name : Str)
deriving DecidableEq

/-- Outcomes of the file-system calls made by `runPython`:
`os.CreateTemp` (an error or the fresh file's name), `WriteString` and
`Close` (an error or success). -/
structure PyEnv where
  createTemp : Except Str Str
  writeErr : Option Str
  closeErr : Option Str

/-- Go `runPython`: default the interpreter to `python`, create a temp
file, write and close it, run the interpreter on it, and normalize the
outcome; the deferred `os.Remove(tmpName)` is modelled as a `removeFile`
event emitted when the function returns on any path after a successful
`os.CreateTemp`.  Returns (output, exitCode, file-system events in order). -/
def runPython (exec : ExecEnv) (pe : PyEnv) (_code pythonBin : Str) :
    Str × Int × List FsEvent :=
  let bin := if goTrimSpace pythonBin = [] then strL "python" else pythonBin
  match pe.createTemp with
  | .error e => (e, 1, [])
  | .ok tmpName =>
    let fin := fun (out : Str) (ec : Int) =>
      (out, ec, [FsEvent.create tmpName, FsEvent.removeFile tmpName])
    match pe.writeErr with
    | some e => fin e 1
    | none =>
      match pe.closeErr with
      | some e => fin e 1
      | none =>
        match exec bin [tmpName] [] with
        | .success out => fin out 0
        | .deadline out => fin (out ++ strL "\ncommand timed out") 124
        | .canceled out => fin (out ++ strL "\ncommand canceled") 130
        | .exited out c => fin out c
        | .failed out _ m => fin (out ++ '\n' :: m) 1

/-- Double-quote character. -/
def dquote : Char := Char.ofNat 34

/-- Backslash character. -/
def bslash : Char := '\\'

/-- Simple model of `shlex.Split` (external google/shlex library) for the
fragment the sql backend exercises: whitespace-separated tokens with
double- or single-quoted segments; an unterminated quote is an error.
Escape handling inside words is omitted; no claim depends on it. -/
def shlexSplitAux : Str → Str → Option Char → List Str → Except Str (List Str)
  | [], _word, some _, _ => .error (strL "EOF found when expecting closing quote")
  | [], word, none, acc =>
    .ok ((if word = [] then acc else word.reverse :: acc).reverse)
  | c :: rest, word, some q, acc =>
    if c = q then shlexSplitAux rest word none acc
    else shlexSplitAux rest (c :: word) (some q) acc
  | c :: rest, word, none, acc =>
    if c = dquote ∨ c = Char.ofNat 39 then shlexSplitAux rest word (some c) acc
    else if isGoSpace c then
      shlexSplitAux rest [] none (if word = [] then acc else word.reverse :: acc)
    else shlexSplitAux rest (c :: word) none acc

/-- Entry point of the `shlex.Split` model. -/
def shlexSplit (s : Str) : Except Str (List Str) := shlexSplitAux s [] none []

/-- Go `runWithCmd`: tokenize the configured command shell-style, launch
the program with the code body supplied on standard input, and normalize
the outcome exactly as the other process backends do. -/
def runWithCmd (exec : ExecEnv) (command input : Str) : Str × Int :=
  match shlexSplit command with
  | .error e => (strL "invalid command: " ++ e, 1)
  | .ok [] => (strL "invalid command", 1)
  | .ok (p :: args) =>
    match exec p args input with
    | .success out => (out, 0)
    | .deadline out => (out ++ strL "\ncommand timed out", 124)
    | .canceled out => (out ++ strL "\ncommand canceled", 130)
    | .exited out c => (out, c)
    | .failed out _ m => (out ++ '\n' :: m, 1)

/-- Opening curly brace character. -/
def lcurl : Char := Char.ofNat 123

/-- Closing curly brace character. -/
def rcurl : Char := Char.ofNat 125

mutual

/-- A decoded JSON value, modelling what Go `json.Unmarshal` stores in an
`any`: `nil`, `bool`, number, `string`, `[]any`, `map[string]any`.  Two
modelled deviations from `encoding/json`, both documented because no claim
depends on them: numbers are integers (Go decodes into `float64`; on
integral values the two agree and print identically), and `\uXXXX` string
escapes are not supported.  Object fields are kept sorted by key with a
later duplicate key replacing an earlier one, which is exactly the
composition of Go's unordered map semantics with `MarshalIndent`'s sorted
key output.  Element and member sequences are mutual inductives rather
than `List` so that all functions over values are structurally
recursive. -/
inductive JVal where
  | null : JVal
  | bool : Bool → JVal
  | num : Int → JVal
  | str : Str → JVal
  | arr : JList → JVal
  | obj : JObj → JVal

/-- A sequence of JSON array elements. -/
inductive JList where
  | nil : JList
  | cons : JVal → JList → JList

/-- A sequence of JSON object members. -/
inductive JObj where
  | nil : JObj
  | cons : Str → JVal → JObj → JObj

end

/-- JSON insignificant whitespace. -/
def isJsonWs (c : Char) : Bool := c = ' ' || c = '\t' || c = '\n' || c = '\r'

/-- Skip insignificant whitespace. -/
def skipWs (s : Str) : Str := s.dropWhile isJsonWs

/-- ASCII digit test. -/
def isDigitC (c : Char) : Bool := '0' ≤ c && c ≤ '9'

/-- Value of an ASCII digit character. -/
def digitVal (c : Char) : Nat := c.toNat - 48

/-- Digit character for a value below ten. -/
def digitChar (d : Nat) : Char :=
  match d with
  | 0 => '0' | 1 => '1' | 2 => '2' | 3 => '3' | 4 => '4'
  | 5 => '5' | 6 => '6' | 7 => '7' | 8 => '8' | _ => '9'

/-- Fuel-indexed decimal digit renderer, most significant digit first; the
fuel only serves structural recursion and any fuel above the input
suffices. -/
def natDigitsF : Nat → Nat → Str
  | 0, _ => []
  | fuel + 1, n =>
    if n < 10 then [digitChar n]
    else natDigitsF fuel (n / 10) ++ [digitChar (n % 10)]

/-- Decimal digits of a natural number, most significant first. -/
def natDigits (n : Nat) : Str := natDigitsF (n + 1) n

/-- Decimal rendering of an integer, as Go prints an integral float64. -/
def printInt (n : Int) : Str :=
  if n < 0 then '-' :: natDigits n.natAbs else natDigits n.natAbs

/-- Resolve a one-character JSON string escape. -/
def unescapeChar (e : Char) : Option Char :=
  if e = dquote then some dquote
  else if e = bslash then some bslash
  else if e = '/' then some '/'
  else if e = 'n' then some '\n'
  else if e = 't' then some '\t'
  else if e = 'r' then some '\r'
  else if e = 'b' then some (Char.ofNat 8)
  else if e = 'f' then some (Char.ofNat 12)
  else none

/-- Parse a JSON string body after the opening quote; returns the decoded
body and the remainder after the closing quote. -/
def parseStrBody : Str → Except Str (Str × Str)
  | [] => .error (strL "unexpected end of JSON input")
  | c :: rest =>
    if c = dquote then .ok ([], rest)
    else if c = bslash then
      match rest with
      | [] => .error (strL "unexpected end of JSON input")
      | e :: rest2 =>
        match unescapeChar e with
        | none => .error (strL "invalid character in string escape code")
        | some ch =>
          match parseStrBody rest2 with
          | .error m => .error m
          | .ok (body, r) => .ok (ch :: body, r)
    else
      match parseStrBody rest with
      | .error m => .error m
      | .ok (body, r) => .ok (c :: body, r)

/-- Parse a JSON number (integer fragment): optional minus, a digit run
with no redundant leading zero. -/
def parseNum (s : Str) : Except Str (Int × Str) :=
  let neg : Bool := s.head? = some '-'
  let s1 := if neg then s.drop 1 else s
  let ds := s1.takeWhile isDigitC
  if ds = [] then .error (strL "invalid character in numeric literal")
  else if 1 < ds.length ∧ ds.head? = some '0' then
    .error (strL "invalid leading zero in numeric literal")
  else
    let v : Nat := ds.foldl (fun a c => 10 * a + digitVal c) 0
    .ok (if neg then -(v : Int) else (v : Int), s1.drop ds.length)

/-- Strict lexicographic byte order on strings, the order in which Go's
`MarshalIndent` emits map keys. -/
def strLtB : Str → Str → Bool
  | [], [] => false
  | [], _ :: _ => true
  | _ :: _, [] => false
  | a :: as, b :: bs =>
    if a.toNat < b.toNat then true
    else if b.toNat < a.toNat then false
    else strLtB as bs

/-- Insert a key/value pair into a key-sorted member sequence, replacing
an existing binding of the same key: one Go map assignment. -/
def insertKey (k : Str) (v : JVal) : JObj → JObj
  | .nil => .cons k v .nil
  | .cons k2 v2 rest =>
    if k = k2 then .cons k v rest
    else if strLtB k k2 then .cons k v (.cons k2 v2 rest)
    else .cons k2 v2 (insertKey k v rest)

/-- Fold a member sequence in source order into a Go map modelled as a
sorted member sequence; a later duplicate key wins, as with map
assignment. -/
def canonMapAux (acc : JObj) : JObj → JObj
  | .nil => acc
  | .cons k v rest => canonMapAux (insertKey k v acc) rest

/-- Build the map for an object's members. -/
def canonMap (l : JObj) : JObj := canonMapAux .nil l

mutual

/-- Parse one JSON value; the fuel argument only bounds recursion depth and
is irrelevant when large enough for the input. -/
def parseVal : Nat → Str → Except Str (JVal × Str)
  | 0, _ => .error (strL "json value nesting exceeds model fuel")
  | fuel + 1, s0 =>
    let s := skipWs s0
    match s with
    | [] => .error (strL "unexpected end of JSON input")
    | c :: rest =>
      if c = 'n' then
        if rest.take 3 = strL "ull" then .ok (JVal.null, rest.drop 3)
        else .error (strL "invalid character in literal null")
      else if c = 't' then
        if rest.take 3 = strL "rue" then .ok (JVal.bool true, rest.drop 3)
        else .error (strL "invalid character in literal true")
      else if c = 'f' then
        if rest.take 4 = strL "alse" then .ok (JVal.bool false, rest.drop 4)
        else .error (strL "invalid character in literal false")
      else if c = dquote then
        match parseStrBody rest with
        | .error m => .error m
        | .ok (body, r) => .ok (JVal.str body, r)
      else if c = '-' ∨ isDigitC c then
        match parseNum s with
        | .error m => .error m
        | .ok (n, r) => .ok (JVal.num n, r)
      else if c = '[' then
        match skipWs rest with
        | [] => .error (strL "unexpected end of JSON input")
        | c2 :: rest2 =>
          if c2 = ']' then .ok (JVal.arr .nil, rest2)
          else
            match parseElems fuel (c2 :: rest2) with
            | .error m => .error m
            | .ok (vs, r) => .ok (JVal.arr vs, r)
      else if c = lcurl then
        match skipWs rest with
        | [] => .error (strL "unexpected end of JSON input")
        | c2 :: rest2 =>
          if c2 = rcurl then .ok (JVal.obj .nil, rest2)
          else
            match parseMembers fuel (c2 :: rest2) with
            | .error m => .error m
            | .ok (kvs, r) => .ok (JVal.obj (canonMap kvs), r)
      else .error (strL "invalid character looking for beginning of value")

/-- Parse the elements of a non-empty array up to and including the
closing bracket. -/
def parseElems : Nat → Str → Except Str (JList × Str)
  | 0, _ => .error (strL "json value nesting exceeds model fuel")
  | fuel + 1, s =>
    match parseVal fuel s with
    | .error m => .error m
    | .ok (v, r) =>
      match skipWs r with
      | [] => .error (strL "unexpected end of JSON input")
      | c :: rest =>
        if c = ',' then
          match parseElems fuel rest with
          | .error m => .error m
          | .ok (vs, r2) => .ok (.cons v vs, r2)
        else if c = ']' then .ok (.cons v .nil, rest)
        else .error (strL "invalid character after array element")

/-- Parse the members of a non-empty object up to and including the
closing brace, in source order. -/
def parseMembers : Nat → Str → Except Str (JObj × Str)
  | 0, _ => .error (strL "json value nesting exceeds model fuel")
  | fuel + 1, s =>
    match skipWs s with
    | [] => .error (strL "unexpected end of JSON input")
    | c :: rest =>
      if c = dquote then
        match parseStrBody rest with
        | .error m => .error m
        | .ok (key, r) =>
          match skipWs r with
          | [] => .error (strL "unexpected end of JSON input")
          | c2 :: rest2 =>
            if c2 = ':' then
              match parseVal fuel rest2 with
              | .error m => .error m
              | .ok (v, r2) =>
                match skipWs r2 with
                | [] => .error (strL "unexpected end of JSON input")
                | c3 :: rest3 =>
                  if c3 = ',' then
                    match parseMembers fuel rest3 with
                    | .error m => .error m
                    | .ok (kvs, r3) => .ok (.cons key v kvs, r3)
                  else if c3 = rcurl then .ok (.cons key v .nil, rest3)
                  else .error (strL "invalid character after object member")
            else .error (strL "invalid character after object key")
      else .error (strL "invalid character looking for object key")

end

/-- Model of `json.Unmarshal` into `any`: one value followed by at most
insignificant whitespace. -/
def parseJSON (s : Str) : Except Str JVal :=
  match parseVal (s.length + 1) s with
  | .error m => .error m
  | .ok (v, rest) =>
    if skipWs rest = [] then .ok v
    else .error (strL "invalid character after top-level value")

/-- Escape one character of a JSON string for output. -/
def escapeChar (c : Char) : Str :=
  if c = dquote then [bslash, dquote]
  else if c = bslash then [bslash, bslash]
  else if c = '\n' then [bslash, 'n']
  else if c = '\t' then [bslash, 't']
  else if c = '\r' then [bslash, 'r']
  else [c]

/-- Serialize a JSON string with surrounding quotes. -/
def printStr (s : Str) : Str :=
  dquote :: (s.flatMap escapeChar) ++ [dquote]

/-- Two-space indentation at a nesting depth, as produced by
`json.MarshalIndent(v, "", "  ")`. -/
def ind (d : Nat) : Str := List.replicate (2 * d) ' '

mutual

/-- Model of `json.MarshalIndent(v, "", "  ")`: objects and arrays open
with their bracket, put each child on its own line indented two further
spaces, and close with the bracket at the parent indentation; empty
composites print as a bare bracket pair; object members print sorted keys
(the model keeps maps key-sorted, see `JVal`). -/
def printVal : JVal → Nat → Str
  | .null, _ => strL "null"
  | .bool true, _ => strL "true"
  | .bool false, _ => strL "false"
  | .num n, _ => printInt n
  | .str s, _ => printStr s
  | .arr .nil, _ => strL "[]"
  | .arr (.cons x xs), d =>
    '[' :: '\n' :: (printItems (.cons x xs) (d + 1) ++ '\n' :: (ind d ++ [']']))
  | .obj .nil, _ => [lcurl, rcurl]
  | .obj (.cons k v kvs), d =>
    lcurl :: '\n' :: (printMembers (.cons k v kvs) (d + 1) ++ '\n' :: (ind d ++ [rcurl]))

/-- Array elements, one per line, comma separated. -/
def printItems : JList → Nat → Str
  | .nil, _ => []
  | .cons x .nil, d => ind d ++ printVal x d
  | .cons x (.cons y rest), d =>
    ind d ++ printVal x d ++ ',' :: '\n' :: printItems (.cons y rest) d

/-- Object members, one per line, comma separated, `"key": value`. -/
def printMembers : JObj → Nat → Str
  | .nil, _ => []
  | .cons k v .nil, d => ind d ++ printStr k ++ ':' :: ' ' :: printVal v d
  | .cons k v (.cons k2 v2 rest), d =>
    ind d ++ printStr k ++ ':' :: ' ' :: printVal v d ++
      ',' :: '\n' :: printMembers (.cons k2 v2 rest) d

end

/-- Go `prettyJSON`: unmarshal the body, then reindent it with two-space
indentation; the unmarshal failure is propagated (`MarshalIndent` cannot
fail on a decoded value). -/
def prettyJSON (s : Str) : Except Str Str :=
  match parseJSON s with
  | .error m => .error m
  | .ok v => .ok (printVal v 0)

/-- The key of the first member, when present, is above a given key. -/
def headKeyGt (k : Str) : JObj → Prop
  | .nil => True
  | .cons k2 _ _ => strLtB k k2 = true

mutual

/-- A value in the canonical form produced by the decoder: object members
key-sorted at every level.  This is the invariant Go's map representation
guarantees up to marshalling order. -/
def canonV : JVal → Prop
  | .null => True
  | .bool _ => True
  | .num _ => True
  | .str _ => True
  | .arr xs => canonL xs
  | .obj kvs => canonO kvs

/-- Canonical elements. -/
def canonL : JList → Prop
  | .nil => True
  | .cons v rest => canonV v ∧ canonL rest

/-- Canonical members: values canonical and keys strictly increasing. -/
def canonO : JObj → Prop
  | .nil => True
  | .cons k v rest => canonV v ∧ headKeyGt k rest ∧ canonO rest

end

/-- Every value of the member sequence is canonical (no key condition). -/
def valuesCanonO : JObj → Prop
  | .nil => True
  | .cons _ v rest => canonV v ∧ valuesCanonO rest

/-- Every key of the member sequence is below the given key. -/
def allKeysLtKey : JObj → Str → Prop
  | .nil, _ => True
  | .cons k2 _ rest, k => strLtB k2 k = true ∧ allKeysLtKey rest k

/-- The given key is below every key of the member sequence. -/
def keyAllLt (k : Str) : JObj → Prop
  | .nil => True
  | .cons k2 _ rest => strLtB k k2 = true ∧ keyAllLt k rest

/-- Concatenation of member sequences. -/
def appendO : JObj → JObj → JObj
  | .nil, o => o
  | .cons k v rest, o => .cons k v (appendO rest o)

/-- The first character, if any, is not a digit (the only token whose
parse is greedy into what follows it). -/
def noDigitHead (s : Str) : Prop := ∀ c, s.head? = some c → isDigitC c = false

/-- The printed text that follows the first element of an array: nothing,
or a comma, newline and the remaining items. -/
def itemsTail : JList → Nat → Str
  | .nil, _ => []
  | .cons y ys, d => ',' :: '\n' :: printItems (.cons y ys) d

/-- The printed text that follows the first member of an object. -/
def membersTail : JObj → Nat → Str
  | .nil, _ => []
  | .cons k v kvs, d => ',' :: '\n' :: printMembers (.cons k v kvs) d

/-- The `config.RunBlockConfig` record handed to `Run`. -/
structure RunBlockConfig where
  PythonBin : Str
  Shell : Str
  SQLCmd : Str
deriving DecidableEq

/-- The `Result` record assembled by `Run`. -/
structure Result where
  Language : Str
  Output : Str
  ExitCode : Int
  RanAt : Str
  BlockEnd : Int
deriving DecidableEq

/-- Go `Run`, the execution dispatcher, from the point where the document
text is in hand: `os.ReadFile` is modelled as the already-read document
`doc` (propagation of file-read errors is outside the model), the initial
`ctx.Err()` check as `ctxErr`, `time.Now().Format(time.RFC3339)` as `now`,
`sort.Slice` inside `PickBlock` as `sortFn`, and process execution as the
oracle `exec`.  Parse, select, case-fold the language, and route to the
backend; unsupported languages and the unconfigured-sql case return typed
errors with the source's message texts. -/
def RunModel (exec : ExecEnv) (pe : PyEnv) (sortFn : List Candidate → List Candidate)
    (goosWindows : Bool) (ctxErr : Option Str) (now : Str)
    (doc : Str) (cursor : Int) (cfg : RunBlockConfig) : Except Str Result :=
  match ctxErr with
  | some e => .error e
  | none =>
    let blocks := ParseBlocks doc
    if blocks.isEmpty then .error (strL "no fenced code block found") else
    match PickBlockWith sortFn blocks cursor with
    | none => .error (strL "unable to select code block")
    | some block =>
      let lang := toLowerStr block.Language
      let base : Result :=
        { Language := lang, Output := [], ExitCode := 0, RanAt := now, BlockEnd := block.End }
      if lang = strL "bash" ∨ lang = strL "sh" ∨ lang = strL "shell" then
        let r := runShell exec block.Code cfg.Shell goosWindows
        .ok { base with Output := r.1, ExitCode := r.2 }
      else if lang = strL "python" ∨ lang = strL "py" then
        let r := runPython exec pe block.Code cfg.PythonBin
        .ok { base with Output := r.1, ExitCode := r.2.1 }
      else if lang = strL "json" then
        match prettyJSON block.Code with
        | .error e => .ok { base with Output := e, ExitCode := 1 }
        | .ok pretty => .ok { base with Output := pretty, ExitCode := 0 }
      else if lang = strL "sql" then
        if goTrimSpace cfg.SQLCmd = [] then
          .error (strL "sql execution unsupported without runblock.sql_cmd")
        else
          let r := runWithCmd exec cfg.SQLCmd block.Code
          .ok { base with Output := r.1, ExitCode := r.2 }
      else .error (strL "unsupported language: " ++ block.Language)

/-- A trivial execution oracle for witnesses. -/
def execNull : ExecEnv := fun _ _ _ => .success []

/-- A file-system oracle whose temp-file creation fails; used by witnesses
for non-python paths, which never consult it. -/
def peNull : PyEnv := { createTemp := .error [], writeErr := none, closeErr := none }

/-- An empty configuration record. -/
def cfgNull : RunBlockConfig := { PythonBin := [], Shell := [], SQLCmd := [] }

/-- Oracle under which `bash` exists but exceeds the execution deadline
with some output already captured, and no other binary exists. -/
def execShellTimeout : ExecEnv := fun p _ _ =>
  if p = strL "bash" then ExecOutcome.deadline (strL "partial output")
  else ExecOutcome.failed [] true (strL "not found")

/-- Oracle under which no shell binary exists at all. -/
def execAllMissing : ExecEnv := fun p _ _ =>
  ExecOutcome.failed [] true
    (strL "exec: " ++ p ++ strL ": executable file not found in $PATH")

/-- Oracle under which `bash` is missing and `sh` runs successfully. -/
def execBashMissing : ExecEnv := fun p _ _ =>
  if p = strL "sh" then ExecOutcome.success (strL "hi\n")
  else ExecOutcome.failed [] true (strL "bash missing")

/-- The `lastErr` value after skipping a run of not-found candidates: the
error message of the last skipped candidate, or the initial value when
none were skipped. -/
def foldNotFoundMsg (exec : ExecEnv) (code : Str) (cands : List Str) (lastE : Str) : Str :=
  cands.foldl
    (fun acc c =>
      match (runShellWithBinary exec c code).2.2 with
      | some e => e.msg
      | none => acc)
    lastE

/-- First selector counterexample block: spans offsets 0 to 5. -/
def cexB1 : Block :=
  { Language := strL "a", Code := [], Start := 0, End := 5, CodeStart := 0, CodeEnd := 0 }

/-- Second selector counterexample block: spans offsets 20 to 25. -/
def cexB2 : Block :=
  { Language := strL "b", Code := [], Start := 20, End := 25, CodeStart := 0, CodeEnd := 0 }

/-- A document body built from lines, each terminated by a bare newline. -/
def bodyNL : List Str → Str
  | [] => []
  | l :: rest => l ++ '\n' :: bodyNL rest

/-- A document body built from lines, each terminated by `\r\n`. -/
def crlfBody : List Str → Str
  | [] => []
  | l :: rest => l ++ '\r' :: '\n' :: crlfBody rest

/-- Lines joined by single newlines with no terminator, the shape of a
parsed code body. -/
def joinNL : List Str → Str
  | [] => []
  | [l] => l
  | l :: l2 :: rest => l ++ '\n' :: joinNL (l2 :: rest)

/-- Line texts paired with their start positions, the explicit form of
`splitLinesPos` on a body of newline-terminated lines. -/
def posLines : List Str → Nat → List (Nat × Str)
  | [], _ => []
  | l :: rest, pos => (pos, l) :: posLines rest (pos + l.length + 1)

/-- The `strings.TrimSpace` of the line that starts at position `k` of the
document (the text from `k` to the next newline). -/
def trimLineFrom (s : Str) (k : Nat) : Str :=
  goTrimSpace ((s.drop k).takeWhile (fun c => c ≠ '\n'))

/-- A code-body line that interacts with no fence machinery: it contains
no newline, is not itself an opening-fence line, and does not trim to a
closing fence. -/
def lineOK (l : Str) : Prop :=
  '\n' ∉ l ∧ fenceLineMatch l = none ∧ goTrimSpace l ≠ strL "```"

/-- Decidability of `lineOK`, for concrete witnesses. -/
instance (l : Str) : Decidable (lineOK l) := by
  unfold lineOK
  infer_instance

/-- Invariant of a value-parser outcome: a success carries a canonical
value and a failure carries a non-empty message. -/
def GoodV (res : Except Str (JVal × Str)) : Prop :=
  (∀ v r, res = .ok (v, r) → canonV v) ∧ (∀ e, res = .error e → e ≠ [])

/-- Invariant of an element-parser outcome. -/
def GoodL (res : Except Str (JList × Str)) : Prop :=
  (∀ vs r, res = .ok (vs, r) → canonL vs) ∧ (∀ e, res = .error e → e ≠ [])

/-- Invariant of a member-parser outcome: values canonical, message
non-empty. -/
def GoodO (res : Except Str (JObj × Str)) : Prop :=
  (∀ kvs r, res = .ok (kvs, r) → valuesCanonO kvs) ∧ (∀ e, res = .error e → e ≠ [])

section Theorems

/-- Helper: a selected block implies a non-empty block list. -/
theorem pick_some_not_empty {sortFn : List Candidate → List Candidate}
    {blocks : List Block} {cursor : Int} {b : Block}
    (h : PickBlockWith sortFn blocks cursor = some b) : blocks.isEmpty = false := by
  cases he : blocks.isEmpty
  · rfl
  · rw [PickBlockWith, he] at h
    simp at h

/-- C9: for every python execution in which the temporary script file is
successfully created, the backend's file-system trace is exactly one
creation of that file followed by its removal (the deferred
`os.Remove(tmpName)`), on every exit path: write failure, close failure,
successful run, nonzero exit, launch failure, timeout and cancellation —
i.e. for every oracle behavior. -/
theorem runPython_always_removes_tempfile (exec : ExecEnv) (pe : PyEnv)
    (code bin tmpName : Str) (h : pe.createTemp = .ok tmpName) :
    (runPython exec pe code bin).2.2
      = [FsEvent.create tmpName, FsEvent.removeFile tmpName] := by
  obtain ⟨ct, we, ce⟩ := pe
  cases h
  cases we with
  | some e => rfl
  | none =>
    cases ce with
    | some e => rfl
    | none =>
      unfold runPython
      dsimp only
      split <;> rfl

/-- Witness for C9 at a concrete oracle. -/
theorem runPython_always_removes_tempfile_witness :
    (runPython execNull
        { createTemp := .ok (strL "margin-run-1.py"), writeErr := none, closeErr := none }
        (strL "x = 1") []).2.2
      = [FsEvent.create (strL "margin-run-1.py"), FsEvent.removeFile (strL "margin-run-1.py")] :=
  runPython_always_removes_tempfile execNull _ (strL "x = 1") [] (strL "margin-run-1.py") rfl

/-- C1 (code-bug evidence): when a shell block's process exceeds the
deadline, `runShellWithBinary` computes exit code 124 together with a
non-nil timeout error, but `runShell`'s candidate loop treats every
non-nil, non-not-found error as a launch failure and returns the captured
output plus the timeout notice with exit code 1; `Run` then surfaces a
normal `Result` whose `ExitCode` is 1 rather than the 124 the claim and
spec require. -/
theorem shell_deadline_result_evidence :
    runShellWithBinary execShellTimeout (strL "bash") (strL "sleep 60")
      = (strL "partial output", 124, some { notFound := false, msg := timeoutErrMsg })
    ∧ runShell execShellTimeout (strL "sleep 60") [] false
      = (strL "partial output" ++ '\n' :: timeoutErrMsg, 1)
    ∧ RunModel execShellTimeout peNull id false none (strL "2026-01-01T00:00:00Z")
        (strL "```sh\nsleep 60\n```\n") 0 cfgNull
      = .ok { Language := strL "sh"
              Output := strL "partial output" ++ '\n' :: timeoutErrMsg
              ExitCode := 1
              RanAt := strL "2026-01-01T00:00:00Z"
              BlockEnd := 19 } := by
  refine ⟨by rfl, by rfl, by rfl⟩

/-- C5: when the selected block's case-folded language tag is none of
bash, sh, shell, python, py, json, sql, the dispatcher returns the
`unsupported language` error carrying the original, non-folded tag, for
every execution oracle (no backend runs and no Result is produced). -/
theorem run_unsupported_language (exec : ExecEnv) (pe : PyEnv)
    (sortFn : List Candidate → List Candidate) (goos : Bool) (now doc : Str)
    (cursor : Int) (cfg : RunBlockConfig) (b : Block)
    (hb : PickBlockWith sortFn (ParseBlocks doc) cursor = some b)
    (hlang : toLowerStr b.Language ∉
      [strL "bash", strL "sh", strL "shell", strL "python", strL "py",
       strL "json", strL "sql"]) :
    RunModel exec pe sortFn goos none now doc cursor cfg
      = .error (strL "unsupported language: " ++ b.Language) := by
  simp only [List.mem_cons, List.not_mem_nil, or_false, not_or] at hlang
  obtain ⟨h1, h2, h3, h4, h5, h6, h7⟩ := hlang
  rw [RunModel, pick_some_not_empty hb, hb]
  simp only [Bool.false_eq_true, if_false, h1, h2, h3, h4, h5, h6, h7, or_self, if_neg,
    not_false_eq_true]

/-- Witness for C5: a `Rust` block is rejected naming the original tag. -/
theorem run_unsupported_language_witness :
    RunModel execNull peNull id false none (strL "2026-01-01T00:00:00Z")
        (strL "```Rust\nfn main\n```\n") 0 cfgNull
      = .error (strL "unsupported language: Rust") :=
  run_unsupported_language execNull peNull id false (strL "2026-01-01T00:00:00Z")
    (strL "```Rust\nfn main\n```\n") 0 cfgNull
    { Language := strL "Rust", Code := strL "fn main",
      Start := 0, End := 20, CodeStart := 8, CodeEnd := 16 }
    (by decide) (by decide)

/-- C6: for every sql-language block under a configuration whose command
string trims to empty, the dispatcher fails with the sql-unsupported error
and no Result; the conclusion holds for every execution oracle, which is
the model's rendering of "before any process is spawned". -/
theorem run_sql_unconfigured (exec : ExecEnv) (pe : PyEnv)
    (sortFn : List Candidate → List Candidate) (goos : Bool) (now doc : Str)
    (cursor : Int) (cfg : RunBlockConfig) (b : Block)
    (hb : PickBlockWith sortFn (ParseBlocks doc) cursor = some b)
    (hsql : toLowerStr b.Language = strL "sql")
    (hcmd : goTrimSpace cfg.SQLCmd = []) :
    RunModel exec pe sortFn goos none now doc cursor cfg
      = .error (strL "sql execution unsupported without runblock.sql_cmd") := by
  rw [RunModel, pick_some_not_empty hb, hb]
  simp only [hsql, hcmd]
  rw [if_neg (by decide), if_neg (by decide), if_neg (by decide), if_neg (by decide),
    if_pos trivial, if_pos trivial]

/-- Witness for C6 at a concrete sql block and blank command. -/
theorem run_sql_unconfigured_witness :
    RunModel execNull peNull id false none (strL "2026-01-01T00:00:00Z")
        (strL "```sql\nselect 1\n```\n") 0 cfgNull
      = .error (strL "sql execution unsupported without runblock.sql_cmd") :=
  run_sql_unconfigured execNull peNull id false (strL "2026-01-01T00:00:00Z")
    (strL "```sql\nselect 1\n```\n") 0 cfgNull
    { Language := strL "sql", Code := strL "select 1",
      Start := 0, End := 20, CodeStart := 7, CodeEnd := 16 }
    (by decide) (by decide) (by decide)

/-- C10: every successful dispatch returns a Result whose `Language` is
the lower-cased form of the selected block's (case-preserved) language tag
and whose `BlockEnd` equals that block's `End` offset. -/
theorem run_result_language_blockEnd (exec : ExecEnv) (pe : PyEnv)
    (sortFn : List Candidate → List Candidate) (goos : Bool) (now doc : Str)
    (cursor : Int) (cfg : RunBlockConfig) (res : Result)
    (h : RunModel exec pe sortFn goos none now doc cursor cfg = .ok res) :
    ∃ b, PickBlockWith sortFn (ParseBlocks doc) cursor = some b ∧
      res.Language = toLowerStr b.Language ∧ res.BlockEnd = b.End := by
  rw [RunModel] at h
  rcases he : (ParseBlocks doc).isEmpty with _ | _
  · rw [he] at h
    rcases hp : PickBlockWith sortFn (ParseBlocks doc) cursor with _ | b
    · rw [hp] at h
      simp at h
    · refine ⟨b, rfl, ?_⟩
      rw [hp] at h
      simp only [Bool.false_eq_true, if_false] at h
      split at h
      · cases h
        exact ⟨rfl, rfl⟩
      · split at h
        · cases h
          exact ⟨rfl, rfl⟩
        · split at h
          · split at h <;> · cases h; exact ⟨rfl, rfl⟩
          · split at h
            · split at h
              · simp at h
              · cases h
                exact ⟨rfl, rfl⟩
            · simp at h
  · rw [he] at h
    simp at h

/-- Witness for C10: a `JSON`-tagged block runs with Result language
`json` while the parsed block keeps the tag `JSON`, and `BlockEnd` is the
block's end offset. -/
theorem run_result_language_blockEnd_witness :
    (∃ b, PickBlockWith id (ParseBlocks (strL "```JSON\n1\n```\n")) 0 = some b ∧
      (Result.mk (strL "json") (strL "1") 0 (strL "2026-01-01T00:00:00Z") 14).Language
        = toLowerStr b.Language ∧
      (Result.mk (strL "json") (strL "1") 0 (strL "2026-01-01T00:00:00Z") 14).BlockEnd = b.End)
    ∧ (ParseBlocks (strL "```JSON\n1\n```\n")).map Block.Language = [strL "JSON"] :=
  ⟨run_result_language_blockEnd execNull peNull id false (strL "2026-01-01T00:00:00Z")
      (strL "```JSON\n1\n```\n") 0 cfgNull _ (by rfl), by decide⟩

/-- Helper: skipping one not-found candidate records its message. -/
theorem runShellLoop_cons_notFound {exec : ExecEnv} {code sh : Str} {rest : List Str}
    {lastE out : Str} {ec : Int} {e : GoErr}
    (hsb : runShellWithBinary exec sh code = (out, ec, some e)) (he : e.notFound = true) :
    runShellLoop exec code (sh :: rest) lastE = runShellLoop exec code rest e.msg := by
  simp [runShellLoop, hsb, he]

/-- Helper: a candidate whose run returns a nil error stops the loop with
its output and exit code. -/
theorem runShellLoop_cons_ran {exec : ExecEnv} {code sh : Str} {rest : List Str}
    {lastE out : Str} {ec : Int}
    (hsb : runShellWithBinary exec sh code = (out, ec, none)) :
    runShellLoop exec code (sh :: rest) lastE = (out, ec) := by
  simp [runShellLoop, hsb]

/-- Helper: a candidate failing with a non-not-found error stops the loop
with the captured output plus the error text and exit code 1. -/
theorem runShellLoop_cons_other {exec : ExecEnv} {code sh : Str} {rest : List Str}
    {lastE out : Str} {ec : Int} {e : GoErr}
    (hsb : runShellWithBinary exec sh code = (out, ec, some e)) (he : e.notFound = false) :
    runShellLoop exec code (sh :: rest) lastE = (out ++ '\n' :: e.msg, 1) := by
  simp [runShellLoop, hsb, he]

/-- Helper: a prefix of not-found candidates is skipped, threading some
`lastErr` value into the rest of the loop. -/
theorem runShellLoop_skip_to (exec : ExecEnv) (code : Str) (pre rest : List Str) (lastE : Str)
    (h : ∀ c ∈ pre, ∃ e, (runShellWithBinary exec c code).2.2 = some e ∧ e.notFound = true) :
    ∃ m, runShellLoop exec code (pre ++ rest) lastE = runShellLoop exec code rest m := by
  induction pre generalizing lastE with
  | nil => exact ⟨lastE, rfl⟩
  | cons c pre ih =>
    obtain ⟨e, he, hnf⟩ := h c (List.mem_cons_self c pre)
    rcases hr : runShellWithBinary exec c code with ⟨out, ec, err⟩
    rw [hr] at he
    simp only at he
    subst he
    rw [List.cons_append, runShellLoop_cons_notFound hr hnf]
    exact ih e.msg (fun c2 hc2 => h c2 (List.mem_cons_of_mem c hc2))

/-- Helper: when every candidate is a not-found failure, the loop returns
the threaded last message (or the no-shell fallback when that is empty)
with exit code 1. -/
theorem runShellLoop_all_notFound (exec : ExecEnv) (code : Str) (cands : List Str) (lastE : Str)
    (h : ∀ c ∈ cands, ∃ e, (runShellWithBinary exec c code).2.2 = some e ∧ e.notFound = true) :
    runShellLoop exec code cands lastE =
      (if foldNotFoundMsg exec code cands lastE = []
        then strL "no shell found to run block"
        else foldNotFoundMsg exec code cands lastE, 1) := by
  induction cands generalizing lastE with
  | nil => rfl
  | cons c cands ih =>
    obtain ⟨e, he, hnf⟩ := h c (List.mem_cons_self c cands)
    rcases hr : runShellWithBinary exec c code with ⟨out, ec, err⟩
    rw [hr] at he
    simp only at he
    subst he
    rw [runShellLoop_cons_notFound hr hnf, ih e.msg (fun c2 hc2 => h c2 (List.mem_cons_of_mem c hc2))]
    simp [foldNotFoundMsg, hr]

/-- C8 (amended): the shell backend consults the ordered candidate list;
after any prefix of candidates that fail as not-found (skipped silently),
the first candidate with a real outcome decides the result — a nil-error
run returns its output and exit code, any other error stops with exit 1
and the error text appended — and when every candidate is missing the
backend returns exit 1 with the last candidate's not-found message as
output (the `no shell found to run block` fallback requires the threaded
message to be empty, which cannot happen for a nonempty candidate list
with nonempty error texts). -/
theorem runShell_candidate_loop (exec : ExecEnv) (code shell : Str) (goos : Bool) :
    (∀ pre sh post, shellCandidates shell goos = pre ++ sh :: post →
      (∀ c ∈ pre, ∃ e, (runShellWithBinary exec c code).2.2 = some e ∧ e.notFound = true) →
      (∀ out ec, runShellWithBinary exec sh code = (out, ec, none) →
          runShell exec code shell goos = (out, ec))
      ∧ (∀ out ec e, runShellWithBinary exec sh code = (out, ec, some e) → e.notFound = false →
          runShell exec code shell goos = (out ++ '\n' :: e.msg, 1)))
    ∧ ((∀ c ∈ shellCandidates shell goos,
          ∃ e, (runShellWithBinary exec c code).2.2 = some e ∧ e.notFound = true) →
        runShell exec code shell goos =
          (if foldNotFoundMsg exec code (shellCandidates shell goos) [] = []
            then strL "no shell found to run block"
            else foldNotFoundMsg exec code (shellCandidates shell goos) [], 1)) := by
  constructor
  · intro pre sh post hdec hpre
    obtain ⟨m, hm⟩ := runShellLoop_skip_to exec code pre (sh :: post) [] hpre
    rw [runShell, hdec]
    constructor
    · intro out ec hsb
      rw [hm, runShellLoop_cons_ran hsb]
    · intro out ec e hsb hnf
      rw [hm, runShellLoop_cons_other hsb hnf]
  · intro h
    rw [runShell, runShellLoop_all_notFound exec code _ [] h]

/-- Witness for C8: with `bash` absent and `sh` present and succeeding,
the backend falls through to `sh` and returns its outcome; and with every
candidate absent it returns the last not-found message with exit 1. -/
theorem runShell_candidate_loop_witness :
    runShell execBashMissing (strL "echo hi") [] false = (strL "hi\n", 0)
    ∧ runShell execAllMissing (strL "echo hi") [] false
        = (strL "exec: sh: executable file not found in $PATH", 1) := by
  constructor
  · exact ((runShell_candidate_loop execBashMissing (strL "echo hi") [] false).1
      [strL "bash"] (strL "sh") [] (by decide)
      (by
        intro c hc
        have hcb : c = strL "bash" := by
          simpa using hc
        subst hcb
        exact ⟨{ notFound := true, msg := strL "bash missing" }, rfl, rfl⟩)).1
      (strL "hi\n") 0 rfl
  · exact (runShell_candidate_loop execAllMissing (strL "echo hi") [] false).2
      (by
        intro c hc
        rw [show shellCandidates ([] : Str) false = [strL "bash", strL "sh"] from by decide] at hc
        have hcb : c = strL "bash" ∨ c = strL "sh" := by
          simpa using hc
        rcases hcb with hcb | hcb <;> subst hcb <;>
          exact ⟨_, rfl, rfl⟩)

/-- C8 (counterexample to the claim as stated): when every candidate is
missing, the backend does not fail with the `NoShellFound` message `no
shell found to run block`; it returns a normal pair (and `Run` a normal
Result) whose output is the operating system's not-found text for the last
candidate tried, with exit code 1. -/
theorem runShell_noShellFound_cex :
    runShell execAllMissing (strL "echo hi") [] false
      = (strL "exec: sh: executable file not found in $PATH", 1)
    ∧ (strL "exec: sh: executable file not found in $PATH" : Str)
        ≠ strL "no shell found to run block"
    ∧ RunModel execAllMissing peNull id false none (strL "2026-01-01T00:00:00Z")
        (strL "```sh\necho hi\n```\n") 0 cfgNull
      = .ok { Language := strL "sh"
              Output := strL "exec: sh: executable file not found in $PATH"
              ExitCode := 1
              RanAt := strL "2026-01-01T00:00:00Z"
              BlockEnd := 18 } := by
  refine ⟨by rfl, by decide, by rfl⟩

/-- Helper: membership in the candidate slice, characterized by block
index. -/
theorem mem_candListAux_iff {cursor : Int} {blocks : List Block} {i : Nat} {c : Candidate} :
    c ∈ candListAux cursor blocks i ↔
      ∃ k bk, blocks.get? k = some bk ∧ c = { idx := i + k, dist := absInt (bk.Start - cursor) } := by
  induction blocks generalizing i with
  | nil => simp [candListAux]
  | cons b rest ih =>
    simp only [candListAux, List.mem_cons, ih]
    constructor
    · rintro (rfl | ⟨k, bk, hk, rfl⟩)
      · exact ⟨0, b, rfl, by simp⟩
      · exact ⟨k + 1, bk, by simpa using hk, by simp; omega⟩
    · rintro ⟨k, bk, hk, rfl⟩
      cases k with
      | zero =>
        left
        simp only [List.get?_cons_zero, Option.some.injEq] at hk
        subst hk
        simp
      | succ k =>
        right
        refine ⟨k, bk, by simpa using hk, by simp; omega⟩

/-- Helper: membership in the full candidate slice. -/
theorem mem_candList_iff {cursor : Int} {blocks : List Block} {c : Candidate} :
    c ∈ candList blocks cursor ↔
      ∃ k bk, blocks.get? k = some bk ∧ c = { idx := k, dist := absInt (bk.Start - cursor) } := by
  simp [candList, mem_candListAux_iff]

/-- Helper: the candidate slice is as long as the block list. -/
theorem candListAux_length (cursor : Int) (blocks : List Block) (i : Nat) :
    (candListAux cursor blocks i).length = blocks.length := by
  induction blocks generalizing i with
  | nil => rfl
  | cons b rest ih => simp [candListAux, ih]

/-- Helper: the head of a distance-sorted candidate list has minimal
distance among its elements. -/
theorem chain_head_min {c : Candidate} {tl : List Candidate}
    (h : List.Chain' (fun a b => a.dist ≤ b.dist) (c :: tl)) :
    ∀ x ∈ tl, c.dist ≤ x.dist := by
  induction tl generalizing c with
  | nil =>
    intro x hx
    simp at hx
  | cons d tl ih =>
    intro x hx
    have h2 := List.chain'_cons.mp h
    rcases List.mem_cons.mp hx with rfl | hx
    · exact h2.1
    · exact le_trans h2.1 (ih h2.2 x hx)

/-- C2 (amended): `pickBlock` returns the first block in document order
whose inclusive range contains the cursor; when no block contains it, it
returns a block whose `|start - cursor|` distance is minimal over all
blocks, for every behavior of the unstable `sort.Slice` consistent with
its contract — but which of several equally-distant blocks is returned is
decided by the sort's output order, not by document order (see the
counterexample). -/
theorem pickBlock_policy (sortFn : List Candidate → List Candidate)
    (blocks : List Block) (cursor : Int) :
    (∀ pre b post, blocks = pre ++ b :: post →
      (∀ x ∈ pre, blockContains cursor x = false) → blockContains cursor b = true →
      PickBlockWith sortFn blocks cursor = some b)
    ∧ ((∀ x ∈ blocks, blockContains cursor x = false) → blocks ≠ [] →
        SortSliceOutcome (candList blocks cursor) (sortFn (candList blocks cursor)) →
        ∃ b, PickBlockWith sortFn blocks cursor = some b ∧ b ∈ blocks ∧
          ∀ x ∈ blocks, absInt (b.Start - cursor) ≤ absInt (x.Start - cursor)) := by
  constructor
  · rintro pre b post rfl hpre hb
    have hne : (pre ++ b :: post).isEmpty = false := by
      simp
    have hfind : (pre ++ b :: post).find? (blockContains cursor) = some b := by
      rw [List.find?_append]
      have h1 : pre.find? (blockContains cursor) = none :=
        List.find?_eq_none.mpr (fun x hx => by simp [hpre x hx])
      rw [h1, List.find?_cons_of_pos _ hb]
      rfl
    rw [PickBlockWith, hne, hfind]
    rfl
  · intro hnone hne hsort
    have hfind : blocks.find? (blockContains cursor) = none :=
      List.find?_eq_none.mpr (fun x hx => by simp [hnone x hx])
    have hblen : 0 < blocks.length := List.length_pos.mpr hne
    have hclen : 0 < (candList blocks cursor).length := by
      rw [candList, candListAux_length]
      exact hblen
    obtain ⟨hperm, hchain⟩ := hsort
    have hslen : 0 < (sortFn (candList blocks cursor)).length := by
      rw [← hperm.length_eq]
      exact hclen
    rcases hout : sortFn (candList blocks cursor) with _ | ⟨c, tl⟩
    · rw [hout] at hslen
      simp at hslen
    · have hcmem : c ∈ candList blocks cursor := by
        rw [hperm.mem_iff, hout]
        exact List.mem_cons_self c tl
      obtain ⟨k, bk, hk, hc⟩ := mem_candList_iff.mp hcmem
      have hmin : ∀ x ∈ candList blocks cursor, c.dist ≤ x.dist := by
        intro x hx
        rw [hperm.mem_iff, hout] at hx
        rcases List.mem_cons.mp hx with rfl | hx
        · exact le_refl _
        · rw [hout] at hchain
          exact chain_head_min hchain x hx
      refine ⟨bk, ?_, List.get?_mem hk, ?_⟩
      · rw [PickBlockWith]
        have hne2 : blocks.isEmpty = false := by
          cases blocks
          · exact absurd rfl hne
          · rfl
        rw [hne2, hfind, hout]
        simp only [Bool.false_eq_true, if_false]
        rw [hc]
        exact hk
      · intro x hx
        obtain ⟨k2, hk2⟩ := List.get?_of_mem hx
        have hmem2 : ({ idx := k2, dist := absInt (x.Start - cursor) } : Candidate)
            ∈ candList blocks cursor :=
          mem_candList_iff.mpr ⟨k2, x, hk2, rfl⟩
        have := hmin _ hmem2
        rw [hc] at this
        exact this

/-- Witness for C2 at concrete inputs: containment picks the containing
block, and outside every block a minimal-distance block is picked. -/
theorem pickBlock_policy_witness :
    PickBlockWith id [cexB1, cexB2] 3 = some cexB1
    ∧ (∃ b, PickBlockWith id [cexB1, cexB2] (-5) = some b ∧ b ∈ [cexB1, cexB2] ∧
        ∀ x ∈ [cexB1, cexB2], absInt (b.Start - (-5)) ≤ absInt (x.Start - (-5))) := by
  constructor
  · exact (pickBlock_policy id [cexB1, cexB2] 3).1 [] cexB1 [cexB2] rfl
      (by intro x hx; simp at hx) (by decide)
  · exact (pickBlock_policy id [cexB1, cexB2] (-5)).2 (by decide) (by decide)
      ⟨List.Perm.refl _, by
        rw [show (id (candList [cexB1, cexB2] (-5)) : List Candidate)
            = [{ idx := 0, dist := 5 }, { idx := 1, dist := 25 }] from by decide]
        exact List.chain'_cons.mpr ⟨by decide, List.chain'_singleton _⟩⟩

/-- C2 (counterexample to the claim as stated): a sort outcome that
satisfies the `sort.Slice` contract (a permutation, nondecreasing in
distance) makes `pickBlock` return the later of two equally-distant
blocks, so the equal-distance tie-break is not the stable
earliest-in-document-order selection the claim asserts. -/
theorem pickBlock_tie_cex :
    SortSliceOutcome (candList [cexB1, cexB2] 10) (List.reverse (candList [cexB1, cexB2] 10))
    ∧ (∀ x ∈ [cexB1, cexB2], blockContains 10 x = false)
    ∧ absInt (cexB1.Start - 10) = absInt (cexB2.Start - 10)
    ∧ PickBlockWith List.reverse [cexB1, cexB2] 10 = some cexB2
    ∧ cexB2 ≠ cexB1 := by
  refine ⟨⟨?_, ?_⟩, by decide, by decide, by decide, by decide⟩
  · rw [show candList [cexB1, cexB2] 10
        = [{ idx := 0, dist := 10 }, { idx := 1, dist := 10 }] from by decide]
    exact List.Perm.swap _ _ _
  · rw [show ((candList [cexB1, cexB2] 10).reverse : List Candidate)
        = [{ idx := 1, dist := 10 }, { idx := 0, dist := 10 }] from by decide]
    exact List.chain'_cons.mpr ⟨by decide, List.chain'_singleton _⟩

/-- Helper: the line splitter ignores its fuel argument once the fuel
covers the input length. -/
theorem splitLinesF_fuel : ∀ (f g : Nat) (s : Str) (pos : Nat),
    s.length ≤ f → s.length ≤ g → splitLinesF f s pos = splitLinesF g s pos
  | f, g, [], pos, _, _ => by
    cases f <;> cases g <;> rfl
  | f + 1, g + 1, c :: t, pos, hf, hg => by
    simp only [splitLinesF]
    have hlen : ((c :: t).takeWhile (fun x => x ≠ '\n')).length ≤ t.length + 1 := by
      simpa using (List.takeWhile_sublist (fun x => decide (x ≠ '\n')) (l := c :: t)).length_le
    have hdf : ((c :: t).drop (((c :: t).takeWhile (fun x => x ≠ '\n')).length + 1)).length ≤ f := by
      simp only [List.length_drop, List.length_cons]
      simp only [List.length_cons] at hf
      omega
    have hdg : ((c :: t).drop (((c :: t).takeWhile (fun x => x ≠ '\n')).length + 1)).length ≤ g := by
      simp only [List.length_drop, List.length_cons]
      simp only [List.length_cons] at hg
      omega
    rw [splitLinesF_fuel f g _ _ hdf hdg]
  | 0, _, c :: t, _, hf, _ => by
    simp at hf
  | _ + 1, 0, c :: t, _, _, hg => by
    simp at hg

/-- Helper: splitting the empty document yields no lines. -/
theorem splitLinesPos_nil (pos : Nat) : splitLinesPos [] pos = [] := rfl

/-- Helper: one unfolding step of the line splitter. -/
theorem splitLinesPos_unfold (s : Str) (pos : Nat) (h : s ≠ []) :
    splitLinesPos s pos
      = (pos, s.takeWhile (fun c => c ≠ '\n')) ::
        splitLinesPos (s.drop ((s.takeWhile (fun c => c ≠ '\n')).length + 1))
          (pos + (s.takeWhile (fun c => c ≠ '\n')).length + 1) := by
  cases s with
  | nil => exact absurd rfl h
  | cons c t =>
    show splitLinesF (t.length + 1) (c :: t) pos = _
    simp only [splitLinesF]
    congr 1
    rw [splitLinesPos]
    apply splitLinesF_fuel
    · simp only [List.length_drop, List.length_cons]
      omega
    · exact le_refl _

/-- Helper: takeWhile distributes over a prefix every element of which
satisfies the predicate. -/
theorem takeWhile_all_append {p : Char → Bool} : ∀ {l r : Str},
    (∀ x ∈ l, p x = true) → (l ++ r).takeWhile p = l ++ r.takeWhile p
  | [], r, _ => rfl
  | c :: t, r, h => by
    have hc : p c = true := h c (List.mem_cons_self c t)
    simp only [List.cons_append, List.takeWhile_cons, hc, if_true]
    rw [takeWhile_all_append (fun x hx => h x (List.mem_cons_of_mem c hx))]

/-- Helper: the first line of `line ++ '\n' :: rest` is `line`. -/
theorem takeWhile_line (line rest : Str) (h : '\n' ∉ line) :
    ((line ++ '\n' :: rest).takeWhile (fun c => c ≠ '\n')) = line := by
  rw [takeWhile_all_append (fun x hx => by simp; exact fun heq => h (heq ▸ hx))]
  simp [List.takeWhile_cons]

/-- Helper: splitting a document that starts with a newline-terminated
line yields that line and then the split of the remainder. -/
theorem splitLinesPos_cons_line (line rest : Str) (pos : Nat) (h : '\n' ∉ line) :
    splitLinesPos (line ++ '\n' :: rest) pos
      = (pos, line) :: splitLinesPos rest (pos + line.length + 1) := by
  rw [splitLinesPos_unfold _ _ (by simp), takeWhile_line _ _ h]
  congr 1
  have : line.length + 1 = line.length + 1 := rfl
  rw [show line.length + 1 = line.length + 1 from rfl]
  have hd : (line ++ '\n' :: rest).drop (line.length + 1) = rest :=
    @List.drop_append _ line ('\n' :: rest) 1
  rw [hd]

/-- Helper: splitting a newline-terminated body followed by a tail. -/
theorem splitLinesPos_body : ∀ (ls : List Str) (tail : Str) (pos : Nat),
    (∀ l ∈ ls, '\n' ∉ l) →
    splitLinesPos (bodyNL ls ++ tail) pos
      = posLines ls pos ++ splitLinesPos tail (pos + (bodyNL ls).length)
  | [], tail, pos, _ => by simp [bodyNL, posLines]
  | l :: ls, tail, pos, h => by
    have h1 : '\n' ∉ l := h l (List.mem_cons_self l ls)
    have hassoc : bodyNL (l :: ls) ++ tail = l ++ '\n' :: (bodyNL ls ++ tail) := by
      simp [bodyNL]
    rw [hassoc, splitLinesPos_cons_line _ _ _ h1,
      splitLinesPos_body ls tail _ (fun x hx => h x (List.mem_cons_of_mem l hx))]
    have harith : pos + l.length + 1 + (bodyNL ls).length = pos + (bodyNL (l :: ls)).length := by
      simp only [bodyNL, List.length_append, List.length_cons]
      omega
    rw [harith]
    simp [posLines]

/-- Helper: every line produced by the splitter is the maximal
newline-free run starting at its reported position. -/
theorem mem_splitLinesPos : ∀ (t : Str) (pos p : Nat) (l : Str),
    (p, l) ∈ splitLinesPos t pos →
    ∃ k, p = pos + k ∧ l = (t.drop k).takeWhile (fun c => c ≠ '\n')
  | t, pos, p, l, h => by
    by_cases ht : t = []
    · rw [ht, splitLinesPos_nil] at h
      simp at h
    · rw [splitLinesPos_unfold t pos ht] at h
      rcases List.mem_cons.mp h with heq | hmem
      · refine ⟨0, ?_, ?_⟩
        · have := congrArg Prod.fst heq
          simpa using this
        · have := congrArg Prod.snd heq
          simpa using this
      · have hlt : (t.drop ((t.takeWhile (fun c => c ≠ '\n')).length + 1)).length < t.length := by
          have h0 : 0 < t.length := List.length_pos.mpr ht
          simp only [List.length_drop]
          omega
        obtain ⟨k, hk, hl⟩ := mem_splitLinesPos _ _ _ _ hmem
        refine ⟨(t.takeWhile (fun c => c ≠ '\n')).length + 1 + k, by omega, ?_⟩
        rw [hl, List.drop_drop]
  termination_by t => t.length
  decreasing_by exact hlt

/-- Helper: past the end of the document every line is empty. -/
theorem trimLineFrom_past (s : Str) (k : Nat) (h : s.length ≤ k) :
    trimLineFrom s k = [] := by
  unfold trimLineFrom
  rw [List.drop_eq_nil_of_le h]
  rfl

/-- Helper: a document with no line trimming to a closing fence has no
closing fence from any position. -/
theorem findClosingFence_none (s : Str)
    (h : ∀ k, k < s.length → trimLineFrom s k ≠ strL "```") (i : Nat) :
    findClosingFence s i = none := by
  have hall : ∀ k, trimLineFrom s k ≠ strL "```" := by
    intro k
    by_cases hk : k < s.length
    · exact h k hk
    · rw [trimLineFrom_past s k (by omega)]
      decide
  rw [findClosingFence]
  have hfind : (splitLinesPos (s.drop i) i).find?
      (fun pl => goTrimSpace pl.2 = strL "```") = none := by
    rw [List.find?_eq_none]
    rintro ⟨p, l⟩ hmem
    obtain ⟨k, hp, hl⟩ := mem_splitLinesPos _ _ _ _ hmem
    rw [List.drop_drop] at hl
    simp only [decide_eq_true_eq]
    intro hcontra
    apply hall (i + k)
    unfold trimLineFrom
    rw [← hl]
    exact hcontra
  rw [hfind]
  rfl

/-- Helper: a found closing fence is a line trimming to three backticks. -/
theorem findClosingFence_some_trim (s : Str) (i j : Nat)
    (h : findClosingFence s i = some j) : trimLineFrom s j = strL "```" := by
  rw [findClosingFence] at h
  rcases hf : (splitLinesPos (s.drop i) i).find?
      (fun pl => goTrimSpace pl.2 = strL "```") with _ | ⟨p, l⟩
  · rw [hf] at h
    simp at h
  · rw [hf] at h
    have hj : p = j := by simpa using h
    subst hj
    have hpred := List.find?_some hf
    have hmem := List.mem_of_find?_eq_some hf
    obtain ⟨k, hp, hl⟩ := mem_splitLinesPos _ _ _ _ hmem
    rw [List.drop_drop] at hl
    simp only [decide_eq_true_eq] at hpred
    unfold trimLineFrom
    rw [hp, ← hl]
    exact hpred

/-- C4: an unterminated fence never becomes a block.  First part: every
block returned by (the regex variant of) `ParseBlocks` has its `CodeEnd`
at a line that trims to a closing fence, so a block is only produced when
a closing fence exists after its opening fence.  Second part: a document
none of whose lines trims to three backticks — in particular one whose
only fence is an unterminated opening fence — yields zero blocks.
`ParseBlocks` is a total function of the document, so it never fails on
malformed input. -/
theorem parseBlocks_unterminated_discarded :
    (∀ (s : Str) (b : Block), b ∈ ParseBlocks s →
      ∃ j, trimLineFrom s j = strL "```" ∧ b.CodeEnd = (j : Int))
    ∧ (∀ s : Str, (∀ k, k < s.length → trimLineFrom s k ≠ strL "```") →
        ParseBlocks s = []) := by
  constructor
  · intro s b hb
    obtain ⟨m, _, hm⟩ := List.mem_filterMap.mp hb
    rw [mkBlock] at hm
    rcases hidx : idxNL (s.drop m.1) with _ | lineEnd
    · rw [hidx] at hm
      simp at hm
    · rw [hidx] at hm
      dsimp only at hm
      rcases hcf : findClosingFence s (m.1 + lineEnd + 1) with _ | closingStart
      · rw [hcf] at hm
        simp at hm
      · rw [hcf] at hm
        refine ⟨closingStart, findClosingFence_some_trim _ _ _ hcf, ?_⟩
        cases hm
        rfl
  · intro s h
    rw [ParseBlocks, List.filterMap_eq_nil_iff]
    intro m _
    rw [mkBlock]
    rcases hidx : idxNL (s.drop m.1) with _ | lineEnd
    · rfl
    · dsimp only
      rw [findClosingFence_none s h (m.1 + lineEnd + 1)]

/-- Witness for C4 at a concrete unterminated document. -/
theorem parseBlocks_unterminated_discarded_witness :
    ParseBlocks (strL "```python\nx = 1\n") = [] :=
  parseBlocks_unterminated_discarded.2 (strL "```python\nx = 1\n") (by decide)

/-- Helper: lines listed by `posLines` come from the given list. -/
theorem mem_posLines : ∀ {ls : List Str} {pos p : Nat} {l : Str},
    (p, l) ∈ posLines ls pos → l ∈ ls
  | [], _, _, _, h => by simp [posLines] at h
  | l0 :: ls, pos, p, l, h => by
    rcases List.mem_cons.mp h with heq | hmem
    · have := congrArg Prod.snd heq
      simp at this
      subst this
      exact List.mem_cons_self _ _
    · exact List.mem_cons_of_mem _ (mem_posLines hmem)

/-- Helper: a body of non-fence lines contributes no fence matches. -/
theorem posLines_filterMap_none (ls : List Str) (pos : Nat)
    (h : ∀ l ∈ ls, fenceLineMatch l = none) :
    (posLines ls pos).filterMap
      (fun pl => (fenceLineMatch pl.2).map (fun lang => (pl.1, lang))) = [] := by
  rw [List.filterMap_eq_nil_iff]
  rintro ⟨p, l⟩ hmem
  rw [h l (mem_posLines hmem)]
  rfl

/-- Helper: a body of lines that do not trim to a closing fence contains
no closing fence line. -/
theorem posLines_find_none (ls : List Str) (pos : Nat)
    (h : ∀ l ∈ ls, goTrimSpace l ≠ strL "```") :
    (posLines ls pos).find? (fun pl => goTrimSpace pl.2 = strL "```") = none := by
  rw [List.find?_eq_none]
  rintro ⟨p, l⟩ hmem
  simp only [decide_eq_true_eq]
  exact h l (mem_posLines hmem)

/-- Helper: index of the newline closing the first line. -/
theorem idxNL_line (line rest : Str) (h : '\n' ∉ line) :
    idxNL (line ++ '\n' :: rest) = some line.length := by
  unfold idxNL
  rw [takeWhile_line _ _ h]
  have hne : ¬ line.length = (line ++ '\n' :: rest).length := by
    simp only [List.length_append, List.length_cons]
    omega
  simp [hne]

/-- Helper: dropping a trailing newline from a string that has one. -/
theorem trimSuffixNL_append (x : Str) : trimSuffixNL (x ++ ['\n']) = x := by
  unfold trimSuffixNL
  rw [List.reverse_append]
  simp

/-- Helper: a newline-terminated body trims to its newline-joined form. -/
theorem bodyNL_nonempty_eq : ∀ (ls : List Str), ls ≠ [] → bodyNL ls = joinNL ls ++ ['\n']
  | [], h => absurd rfl h
  | [l], _ => by simp [bodyNL, joinNL]
  | l :: l2 :: rest, _ => by
    have h2 := bodyNL_nonempty_eq (l2 :: rest) (by simp)
    show l ++ '\n' :: bodyNL (l2 :: rest) = (l ++ '\n' :: joinNL (l2 :: rest)) ++ ['\n']
    rw [h2]
    simp

/-- Helper: trimming the trailing newline of a body yields the joined
lines. -/
theorem trimSuffixNL_bodyNL (ls : List Str) : trimSuffixNL (bodyNL ls) = joinNL ls := by
  cases hls : ls with
  | nil => rfl
  | cons l rest =>
    rw [bodyNL_nonempty_eq (l :: rest) (by simp), trimSuffixNL_append]

/-- Helper: the middle segment of a three-part concatenation. -/
theorem slice_mid (A B C : Str) : slice (A ++ (B ++ C)) A.length (A.length + B.length) = B := by
  unfold slice
  rw [List.take_append, show B.length = B.length + 0 from rfl, List.take_append]
  simp only [List.take_zero, List.append_nil]
  rw [show A.length = A.length + 0 from rfl, List.drop_append]
  simp

/-- Helper: dropping the first two segments of a three-part
concatenation. -/
theorem drop_mid (A B C : Str) : (A ++ (B ++ C)).drop (A.length + B.length) = C := by
  rw [List.drop_append, show B.length = B.length + 0 from rfl, List.drop_append]
  simp

/-- Helper: full computation of the regex-variant parser on a document
that is one opening fence line, a body of plain lines, and one closing
fence line.  The opening line may carry any tag the fence pattern accepts
(covering both bare and carriage-return-terminated forms); the closing
line is any line that the pattern accepts with an empty tag and that trims
to three backticks. -/
theorem parseBlocks_single_fence (openLine lang : Str) (lines : List Str) (closeLine : Str)
    (hopen : fenceLineMatch openLine = some lang)
    (hopenNL : '\n' ∉ openLine)
    (hclose : fenceLineMatch closeLine = some [])
    (hcloseNL : '\n' ∉ closeLine)
    (hcloseTrim : goTrimSpace closeLine = strL "```")
    (hlines : ∀ l ∈ lines, '\n' ∉ l ∧ fenceLineMatch l = none ∧ goTrimSpace l ≠ strL "```") :
    ParseBlocks (openLine ++ '\n' :: (bodyNL lines ++ (closeLine ++ ['\n']))) =
      [{ Language := lang,
         Code := joinNL lines,
         Start := 0,
         End := ((openLine.length + 1 + (bodyNL lines).length + closeLine.length + 1 : Nat) : Int),
         CodeStart := ((openLine.length + 1 : Nat) : Int),
         CodeEnd := ((openLine.length + 1 + (bodyNL lines).length : Nat) : Int) }] := by
  set doc : Str := openLine ++ '\n' :: (bodyNL lines ++ (closeLine ++ ['\n'])) with hdocDef
  have hdoc2 : doc = (openLine ++ ['\n']) ++ (bodyNL lines ++ (closeLine ++ ['\n'])) := by
    simp [hdocDef]
  have hlinesNL : ∀ l ∈ lines, '\n' ∉ l := fun l hl => (hlines l hl).1
  have hsplit3 : splitLinesPos (closeLine ++ ['\n'])
        (0 + openLine.length + 1 + (bodyNL lines).length)
      = [(0 + openLine.length + 1 + (bodyNL lines).length, closeLine)] := by
    rw [splitLinesPos_cons_line closeLine [] _ hcloseNL, splitLinesPos_nil]
  have hsplit : splitLinesPos doc 0
      = (0, openLine) ::
        (posLines lines (0 + openLine.length + 1)
          ++ [(0 + openLine.length + 1 + (bodyNL lines).length, closeLine)]) := by
    rw [hdocDef, splitLinesPos_cons_line openLine _ _ hopenNL,
      splitLinesPos_body lines _ _ hlinesNL, hsplit3]
  have hmatches : fenceMatches doc
      = [(0, lang), (0 + openLine.length + 1 + (bodyNL lines).length, [])] := by
    rw [fenceMatches, hsplit]
    simp [List.filterMap_cons, List.filterMap_append, hopen, hclose,
      posLines_filterMap_none lines _ (fun l hl => (hlines l hl).2.1)]
  have hdrop1 : doc.drop (0 + openLine.length + 1) = bodyNL lines ++ (closeLine ++ ['\n']) := by
    rw [hdocDef, Nat.zero_add]
    exact @List.drop_append _ openLine ('\n' :: (bodyNL lines ++ (closeLine ++ ['\n']))) 1
  have hfcf : findClosingFence doc (0 + openLine.length + 1)
      = some (0 + openLine.length + 1 + (bodyNL lines).length) := by
    rw [findClosingFence, hdrop1, splitLinesPos_body lines _ _ hlinesNL, hsplit3,
      List.find?_append, posLines_find_none lines _ (fun l hl => (hlines l hl).2.2)]
    simp [hcloseTrim]
  have hdrop2 : doc.drop (0 + openLine.length + 1 + (bodyNL lines).length)
      = closeLine ++ ['\n'] := by
    rw [hdoc2,
      show 0 + openLine.length + 1 + (bodyNL lines).length
        = (openLine ++ ['\n']).length + (bodyNL lines).length by simp]
    exact drop_mid _ _ _
  have hidx1 : idxNL (doc.drop 0) = some openLine.length := by
    rw [List.drop_zero, hdocDef]
    exact idxNL_line openLine _ hopenNL
  have hidx2 : idxNL (doc.drop (0 + openLine.length + 1 + (bodyNL lines).length))
      = some closeLine.length := by
    rw [hdrop2]
    exact idxNL_line closeLine [] hcloseNL
  have hdoclen : doc.length
      = openLine.length + 1 + (bodyNL lines).length + closeLine.length + 1 := by
    rw [hdocDef]
    simp only [List.length_append, List.length_cons, List.length_nil]
    omega
  have hfcf2 : findClosingFence doc
      (0 + openLine.length + 1 + (bodyNL lines).length + closeLine.length + 1) = none := by
    have hge : doc.length
        ≤ 0 + openLine.length + 1 + (bodyNL lines).length + closeLine.length + 1 := by
      rw [hdoclen]
      omega
    rw [findClosingFence, List.drop_eq_nil_of_le hge, splitLinesPos_nil]
    rfl
  have hslice : slice doc (0 + openLine.length + 1)
      (0 + openLine.length + 1 + (bodyNL lines).length) = bodyNL lines := by
    rw [hdoc2,
      show (0 + openLine.length + 1 : Nat) = (openLine ++ ['\n']).length by simp,
      show (openLine ++ ['\n']).length + (bodyNL lines).length
          = (openLine ++ ['\n']).length + (bodyNL lines).length from rfl]
    exact slice_mid (openLine ++ ['\n']) (bodyNL lines) (closeLine ++ ['\n'])
  have hmk1 : mkBlock doc (0, lang)
      = some { Language := lang,
               Code := joinNL lines,
               Start := 0,
               End := ((openLine.length + 1 + (bodyNL lines).length + closeLine.length + 1 : Nat) : Int),
               CodeStart := ((openLine.length + 1 : Nat) : Int),
               CodeEnd := ((openLine.length + 1 + (bodyNL lines).length : Nat) : Int) } := by
    unfold mkBlock
    dsimp only
    rw [hidx1]
    dsimp only
    rw [show (0 : Nat) + openLine.length + 1 = 0 + openLine.length + 1 from rfl, hfcf]
    dsimp only
    rw [hidx2, hslice, trimSuffixNL_bodyNL]
    simp
  have hmk2 : mkBlock doc (0 + openLine.length + 1 + (bodyNL lines).length, ([] : Str))
      = none := by
    unfold mkBlock
    dsimp only
    rw [hidx2]
    dsimp only
    rw [hfcf2]
  rw [ParseBlocks, hmatches]
  rw [List.filterMap_cons, hmk1, List.filterMap_cons, hmk2]
  rfl

/-- Helper: a predicate holding on every element leaves takeWhile as the
identity. -/
theorem takeWhile_all {p : Char → Bool} : ∀ {l : Str},
    (∀ x ∈ l, p x = true) → l.takeWhile p = l
  | [], _ => rfl
  | c :: t, h => by
    rw [List.takeWhile_cons, if_pos (by rw [h c (List.mem_cons_self c t)])]
    rw [takeWhile_all (fun x hx => h x (List.mem_cons_of_mem c hx))]

/-- Helper: the fence pattern accepts `BTBTBT<lang>` with exactly the tag
`<lang>` when the tag is made of tag characters. -/
theorem fenceLineMatch_open (lang : Str) (h : ∀ c ∈ lang, isLangChar c = true) :
    fenceLineMatch (strL "```" ++ lang) = some lang := by
  show fenceLineMatch (btick :: btick :: btick :: lang) = some lang
  unfold fenceLineMatch
  rw [show (btick :: btick :: btick :: lang).takeWhile isSpaceTab = [] from by
    rw [List.takeWhile_cons]
    simp [isSpaceTab, btick]]
  simp only [List.length_nil, List.drop_zero, List.take_succ_cons, List.take_zero,
    List.drop_succ_cons]
  rw [if_neg (by omega), if_pos trivial, takeWhile_all h, List.drop_length]
  simp

/-- Helper: the fence pattern accepts `BTBTBT<lang>\r` with the tag
`<lang>` — the trailing carriage return is absorbed by the pattern's
`\r?$`. -/
theorem fenceLineMatch_open_cr (lang : Str) (h : ∀ c ∈ lang, isLangChar c = true) :
    fenceLineMatch (strL "```" ++ (lang ++ ['\r'])) = some lang := by
  show fenceLineMatch (btick :: btick :: btick :: (lang ++ ['\r'])) = some lang
  unfold fenceLineMatch
  rw [show (btick :: btick :: btick :: (lang ++ ['\r'])).takeWhile isSpaceTab = [] from by
    rw [List.takeWhile_cons]
    simp [isSpaceTab, btick]]
  simp only [List.length_nil, List.drop_zero, List.take_succ_cons, List.take_zero,
    List.drop_succ_cons]
  rw [if_neg (by omega), if_pos trivial,
    takeWhile_all_append h, show ['\r'].takeWhile isLangChar = [] from by decide,
    List.append_nil,
    show lang.length = lang.length + 0 from rfl, List.drop_append]
  simp

/-- Helper: no line starting with a tilde matches the backtick-only fence
pattern of the regex variant. -/
theorem fenceLineMatch_tilde (l : Str) : fenceLineMatch ('~' :: l) = none := by
  unfold fenceLineMatch
  rw [show ('~' :: l).takeWhile isSpaceTab = [] from by
    rw [List.takeWhile_cons]
    simp [isSpaceTab]]
  simp only [List.length_nil, List.drop_zero, List.take_succ_cons]
  rw [if_neg (by omega)]
  rw [if_neg (by simp [btick])]

/-- Helper: a document none of whose lines matches the fence pattern
parses to no blocks at all. -/
theorem parseBlocks_no_matches (s : Str)
    (h : ∀ pl ∈ splitLinesPos s 0, fenceLineMatch pl.2 = none) : ParseBlocks s = [] := by
  have hfm : fenceMatches s = [] := by
    rw [fenceMatches, List.filterMap_eq_nil_iff]
    intro pl hpl
    rw [h pl hpl]
    rfl
  rw [ParseBlocks, hfm]
  rfl

/-- Helper: a CRLF-terminated body is the LF-terminated body of the lines
with their carriage returns attached. -/
theorem crlfBody_eq : ∀ (ls : List Str),
    crlfBody ls = bodyNL (ls.map (fun l => l ++ ['\r']))
  | [] => rfl
  | l :: rest => by
    show l ++ '\r' :: '\n' :: crlfBody rest = (l ++ ['\r']) ++ '\n' :: bodyNL (rest.map _)
    rw [crlfBody_eq rest]
    simp

/-- Helper: a newline cannot occur in a fence-opening line built from a
marker free of newlines and a tag of tag characters. -/
theorem nl_not_mem_marker_lang (marker lang : Str) (hm : '\n' ∉ marker)
    (h : ∀ c ∈ lang, isLangChar c = true) : '\n' ∉ marker ++ lang := by
  intro hmem
  rcases List.mem_append.mp hmem with hx | hx
  · exact hm hx
  · have := h '\n' hx
    simp [isLangChar] at this

/-- C3 (amended, regex variant): for a document that is a single fenced
block `<fence><lang>`, newline, `<code>`, newline, `<fence>` whose code
lines contain no fence-like material, the regex-variant `ParseBlocks`
returns exactly one block whose language equals `<lang>` for both `\n` and
`\r\n` line endings; with `\n` endings the code equals `<code>` with no
trailing newline, but with `\r\n` endings every code line retains its
trailing carriage return; and tilde fences are not recognized by this
parser at all — the tilde document yields zero blocks (the goldmark-based
variant delegates fence recognition to an external CommonMark parser and
does accept tildes, as the package's own tilde test expects). -/
theorem parseBlocks_single_block (lang : Str) (lines : List Str)
    (hlang : ∀ c ∈ lang, isLangChar c = true)
    (hlines : ∀ l ∈ lines, lineOK l ∧ lineOK (l ++ ['\r'])) :
    (ParseBlocks ((strL "```" ++ lang) ++ '\n' :: (bodyNL lines ++ (strL "```" ++ ['\n'])))
      = [{ Language := lang, Code := joinNL lines, Start := 0,
           End := ((lang.length + 4 + (bodyNL lines).length + 4 : Nat) : Int),
           CodeStart := ((lang.length + 4 : Nat) : Int),
           CodeEnd := ((lang.length + 4 + (bodyNL lines).length : Nat) : Int) }])
    ∧ (ParseBlocks ((strL "```" ++ lang) ++ '\r' :: '\n' ::
          (crlfBody lines ++ (strL "```" ++ '\r' :: '\n' :: ([] : Str))))
      = [{ Language := lang,
           Code := joinNL (lines.map (fun l => l ++ ['\r'])), Start := 0,
           End := ((lang.length + 5 + (crlfBody lines).length + 5 : Nat) : Int),
           CodeStart := ((lang.length + 5 : Nat) : Int),
           CodeEnd := ((lang.length + 5 + (crlfBody lines).length : Nat) : Int) }])
    ∧ ParseBlocks ((strL "~~~" ++ lang) ++ '\n' :: (bodyNL lines ++ (strL "~~~" ++ ['\n'])))
      = [] := by
  have hlinesNL : ∀ l ∈ lines, '\n' ∉ l := fun l hl => (hlines l hl).1.1
  refine ⟨?_, ?_, ?_⟩
  · have hG := parseBlocks_single_fence (strL "```" ++ lang) lang lines (strL "```")
      (fenceLineMatch_open lang hlang)
      (nl_not_mem_marker_lang (strL "```") lang (by decide) hlang)
      (by decide) (by decide) (by decide)
      (fun l hl => (hlines l hl).1)
    rw [hG]
    have h3 : (strL "```").length = 3 := rfl
    simp only [List.cons.injEq, Block.mk.injEq, List.length_append, h3, and_true]
    and_intros <;> first | trivial | exact Nat.cast_inj.mpr (by omega)
  · have hlines2 : ∀ l2 ∈ lines.map (fun l => l ++ ['\r']),
        '\n' ∉ l2 ∧ fenceLineMatch l2 = none ∧ goTrimSpace l2 ≠ strL "```" := by
      intro l2 hl2
      obtain ⟨l, hl, rfl⟩ := List.mem_map.mp hl2
      exact (hlines l hl).2
    have hopenNL : '\n' ∉ strL "```" ++ (lang ++ ['\r']) := by
      intro hmem
      rcases List.mem_append.mp hmem with hx | hx
      · exact absurd hx (by decide)
      · rcases List.mem_append.mp hx with hy | hy
        · have := hlang '\n' hy
          simp [isLangChar] at this
        · simp at hy
    have hG := parseBlocks_single_fence (strL "```" ++ (lang ++ ['\r'])) lang
      (lines.map (fun l => l ++ ['\r'])) (strL "```" ++ ['\r'])
      (fenceLineMatch_open_cr lang hlang) hopenNL
      (by decide) (by decide) (by decide) hlines2
    have hdocEq : (strL "```" ++ lang) ++ '\r' :: '\n' ::
          (crlfBody lines ++ (strL "```" ++ '\r' :: '\n' :: ([] : Str)))
        = (strL "```" ++ (lang ++ ['\r'])) ++ '\n' ::
          (bodyNL (lines.map (fun l => l ++ ['\r'])) ++ ((strL "```" ++ ['\r']) ++ ['\n'])) := by
      rw [← crlfBody_eq]
      simp
    rw [hdocEq, hG]
    have h3 : (strL "```").length = 3 := rfl
    rw [show bodyNL (lines.map (fun l => l ++ ['\r'])) = crlfBody lines
      from (crlfBody_eq lines).symm]
    simp only [List.cons.injEq, Block.mk.injEq, List.length_append, List.length_cons,
      List.length_nil, h3, and_true]
    and_intros <;> first | trivial | exact Nat.cast_inj.mpr (by omega)
  · have hopenNLT : '\n' ∉ strL "~~~" ++ lang :=
      nl_not_mem_marker_lang (strL "~~~") lang (by decide) hlang
    have hsplitT : splitLinesPos
          ((strL "~~~" ++ lang) ++ '\n' :: (bodyNL lines ++ (strL "~~~" ++ ['\n']))) 0
        = (0, strL "~~~" ++ lang) ::
          (posLines lines (0 + (strL "~~~" ++ lang).length + 1)
            ++ [(0 + (strL "~~~" ++ lang).length + 1 + (bodyNL lines).length,
                 strL "~~~")]) := by
      rw [splitLinesPos_cons_line _ _ _ hopenNLT,
        splitLinesPos_body lines _ _ hlinesNL,
        splitLinesPos_cons_line (strL "~~~") [] _ (by decide), splitLinesPos_nil]
    apply parseBlocks_no_matches
    intro pl hpl
    rw [hsplitT] at hpl
    rcases List.mem_cons.mp hpl with rfl | hpl2
    · show fenceLineMatch (strL "~~~" ++ lang) = none
      rw [show strL "~~~" ++ lang = '~' :: (strL "~~" ++ lang) from rfl]
      exact fenceLineMatch_tilde _
    · rcases List.mem_append.mp hpl2 with hpl3 | hpl4
      · obtain ⟨p, l⟩ := pl
        exact (hlines l (mem_posLines hpl3)).1.2.1
      · have hpe : pl = (0 + (strL "~~~" ++ lang).length + 1 + (bodyNL lines).length,
            strL "~~~") := by simpa using hpl4
        rw [hpe]
        show fenceLineMatch (strL "~~~") = none
        decide

/-- C3 (counterexample to the claim as stated): under `\r\n` line endings
the regex-variant parser retains the trailing carriage return in the code
body (`echo hi\r`, not `echo hi`), so `\n` and `\r\n` documents do not
parse identically; and a tilde-fenced document yields no block at all
despite the claim (and the package's own tilde test) requiring one. -/
theorem parseBlocks_crlf_tilde_cex :
    (ParseBlocks (strL "```sh\r\necho hi\r\n```\r\n")).map Block.Code = [strL "echo hi\r"]
    ∧ strL "echo hi\r" ≠ strL "echo hi"
    ∧ (ParseBlocks (strL "```sh\r\necho hi\r\n```\r\n")).map Block.Language = [strL "sh"]
    ∧ (ParseBlocks (strL "```sh\necho hi\n```\n")).map Block.Code = [strL "echo hi"]
    ∧ ParseBlocks (strL "~~~python\nprint(1)\n~~~\n") = [] := by
  refine ⟨by decide, by decide, by decide, by decide, by decide⟩

/-- Witness for C3 (amended) at a concrete one-line python block. -/
theorem parseBlocks_single_block_witness :
    (ParseBlocks (strL "```py\nx = 1\n```\n")).map Block.Code = [strL "x = 1"]
    ∧ (ParseBlocks (strL "```py\r\nx = 1\r\n```\r\n")).map Block.Code = [strL "x = 1\r"]
    ∧ ParseBlocks (strL "~~~py\nx = 1\n~~~\n") = [] := by
  have h := parseBlocks_single_block (strL "py") [strL "x = 1"] (by decide) (by decide)
  refine ⟨?_, ?_, ?_⟩
  · rw [show strL "```py\nx = 1\n```\n"
        = (strL "```" ++ strL "py") ++ '\n' :: (bodyNL [strL "x = 1"] ++ (strL "```" ++ ['\n']))
      from by decide, h.1]
    rfl
  · rw [show strL "```py\r\nx = 1\r\n```\r\n"
        = (strL "```" ++ strL "py") ++ '\r' :: '\n' ::
          (crlfBody [strL "x = 1"] ++ (strL "```" ++ '\r' :: '\n' :: ([] : Str)))
      from by decide, h.2.1]
    rfl
  · rw [show strL "~~~py\nx = 1\n~~~\n"
        = (strL "~~~" ++ strL "py") ++ '\n' :: (bodyNL [strL "x = 1"] ++ (strL "~~~" ++ ['\n']))
      from by decide, h.2.2]

/-- Helper: the key order is irreflexive. -/
theorem strLtB_irrefl : ∀ a : Str, strLtB a a = false
  | [] => rfl
  | c :: t => by
    unfold strLtB
    rw [if_neg (by omega), if_neg (by omega)]
    exact strLtB_irrefl t

/-- Helper: the key order admits no cycles of length two. -/
theorem strLtB_asymm : ∀ a b : Str, strLtB a b = true → strLtB b a = false
  | [], [] => by intro h; exact absurd h (by simp [strLtB])
  | [], c :: t => by intro _; rfl
  | c :: t, [] => by intro h; exact absurd h (by simp [strLtB])
  | a :: as, b :: bs => by
    intro h
    unfold strLtB at h ⊢
    rcases Nat.lt_trichotomy a.toNat b.toNat with hlt | heq | hgt
    · rw [if_neg (by omega), if_pos hlt]
    · rw [if_neg (by omega), if_neg (by omega)] at h ⊢
      exact strLtB_asymm as bs h
    · rw [if_neg (by omega), if_pos hgt] at h
      exact absurd h (by simp)

/-- Helper: the key order is transitive. -/
theorem strLtB_trans : ∀ a b c : Str,
    strLtB a b = true → strLtB b c = true → strLtB a c = true
  | [], [], _, hab, _ => by simp [strLtB] at hab
  | [], _ :: _, [], _, hbc => by simp [strLtB] at hbc
  | [], _ :: _, _ :: _, _, _ => rfl
  | _ :: _, [], _, hab, _ => by simp [strLtB] at hab
  | _ :: _, _ :: _, [], _, hbc => by simp [strLtB] at hbc
  | a :: as, b :: bs, c :: cs, hab, hbc => by
    unfold strLtB at hab hbc ⊢
    rcases Nat.lt_trichotomy a.toNat b.toNat with h1 | h1 | h1
    · rcases Nat.lt_trichotomy b.toNat c.toNat with h2 | h2 | h2
      · rw [if_pos (by omega)]
      · rw [if_pos (by omega)]
      · rw [if_neg (by omega), if_pos h2] at hbc
        exact absurd hbc (by simp)
    · rcases Nat.lt_trichotomy b.toNat c.toNat with h2 | h2 | h2
      · rw [if_pos (by omega)]
      · rw [if_neg (by omega), if_neg (by omega)] at hab hbc ⊢
        exact strLtB_trans as bs cs hab hbc
      · rw [if_neg (by omega), if_pos h2] at hbc
        exact absurd hbc (by simp)
    · rw [if_neg (by omega), if_pos h1] at hab
      exact absurd hab (by simp)

/-- Helper: characters with equal code points are equal. -/
theorem char_eq_of_toNat (a b : Char) (h : a.toNat = b.toNat) : a = b := by
  rw [← Char.ofNat_toNat a, ← Char.ofNat_toNat b, h]

/-- Helper: the key order is total on distinct keys. -/
theorem strLtB_total : ∀ a b : Str, a ≠ b → strLtB a b = true ∨ strLtB b a = true
  | [], [] => fun h => absurd rfl h
  | [], _ :: _ => fun _ => .inl rfl
  | _ :: _, [] => fun _ => .inr rfl
  | a :: as, b :: bs => fun h => by
    rcases Nat.lt_trichotomy a.toNat b.toNat with hlt | heq | hgt
    · left
      unfold strLtB
      rw [if_pos hlt]
    · have hab : a = b := char_eq_of_toNat a b heq
      subst hab
      have hne : as ≠ bs := fun hcontra => h (by rw [hcontra])
      rcases strLtB_total as bs hne with hr | hr
      · left
        unfold strLtB
        rw [if_neg (by omega), if_neg (by omega)]
        exact hr
      · right
        unfold strLtB
        rw [if_neg (by omega), if_neg (by omega)]
        exact hr
    · right
      unfold strLtB
      rw [if_pos hgt]

/-- Helper: inserting a key above a lower bound keeps the bound on the
head key. -/
theorem headKeyGt_insert (k2 k : Str) (v : JVal) (o : JObj)
    (h1 : strLtB k2 k = true) (h2 : headKeyGt k2 o) : headKeyGt k2 (insertKey k v o) := by
  cases o with
  | nil => exact h1
  | cons k3 v3 r =>
    unfold insertKey
    by_cases he : k = k3
    · rw [if_pos he]
      exact h1
    · rw [if_neg he]
      by_cases hlt : strLtB k k3 = true
      · rw [if_pos hlt]
        exact h1
      · rw [if_neg hlt]
        exact h2

/-- Helper: map assignment preserves canonical members. -/
theorem canonO_insertKey : ∀ (o : JObj) (k : Str) (v : JVal),
    canonV v → canonO o → canonO (insertKey k v o)
  | .nil, k, v, hv, _ => ⟨hv, trivial, trivial⟩
  | .cons k2 v2 r, k, v, hv, hc => by
    obtain ⟨hv2, hhd, hr⟩ := hc
    unfold insertKey
    by_cases he : k = k2
    · rw [if_pos he]
      subst he
      exact ⟨hv, hhd, hr⟩
    · rw [if_neg he]
      by_cases hlt : strLtB k k2 = true
      · rw [if_pos hlt]
        exact ⟨hv, hlt, hv2, hhd, hr⟩
      · rw [if_neg hlt]
        have hgt : strLtB k2 k = true := by
          rcases strLtB_total k k2 he with hx | hx
          · exact absurd hx hlt
          · exact hx
        exact ⟨hv2, headKeyGt_insert k2 k v r hgt hhd, canonO_insertKey r k v hv hr⟩

/-- Helper: folding members into a map yields canonical members. -/
theorem canonMapAux_canon : ∀ (input acc : JObj),
    valuesCanonO input → canonO acc → canonO (canonMapAux acc input)
  | .nil, _, _, hacc => hacc
  | .cons k v rest, acc, hin, hacc =>
    canonMapAux_canon rest (insertKey k v acc) hin.2 (canonO_insertKey acc k v hin.1 hacc)

/-- Helper: the decoded map of a member list is canonical. -/
theorem canonMap_canon (input : JObj) (h : valuesCanonO input) : canonO (canonMap input) :=
  canonMapAux_canon input .nil h trivial

/-- Helper: appending the empty member sequence. -/
theorem appendO_nil : ∀ o : JObj, appendO o .nil = o
  | .nil => rfl
  | .cons k v r => by
    show JObj.cons k v (appendO r .nil) = _
    rw [appendO_nil r]

/-- Helper: member concatenation is associative. -/
theorem appendO_assoc : ∀ a b c : JObj, appendO (appendO a b) c = appendO a (appendO b c)
  | .nil, _, _ => rfl
  | .cons k v r, b, c => by
    show JObj.cons k v (appendO (appendO r b) c) = JObj.cons k v (appendO r (appendO b c))
    rw [appendO_assoc r b c]

/-- Helper: a key bound transfers across concatenation. -/
theorem allKeysLtKey_append : ∀ (a b : JObj) (k : Str),
    allKeysLtKey a k → allKeysLtKey b k → allKeysLtKey (appendO a b) k
  | .nil, _, _, _, hb => hb
  | .cons _ _ r, b, k, ha, hb => ⟨ha.1, allKeysLtKey_append r b k ha.2 hb⟩

/-- Helper: a key bound is monotone in the bounding key. -/
theorem allKeysLtKey_mono : ∀ (o : JObj) (k k2 : Str),
    allKeysLtKey o k → strLtB k k2 = true → allKeysLtKey o k2
  | .nil, _, _, _, _ => trivial
  | .cons k3 _ r, k, k2, ho, hkk =>
    ⟨strLtB_trans k3 k k2 ho.1 hkk, allKeysLtKey_mono r k k2 ho.2 hkk⟩

/-- Helper: inserting a key above every existing key appends it at the
end. -/
theorem insertKey_append_gt : ∀ (acc : JObj) (k : Str) (v : JVal),
    allKeysLtKey acc k → insertKey k v acc = appendO acc (.cons k v .nil)
  | .nil, _, _, _ => rfl
  | .cons k2 v2 r, k, v, hacc => by
    unfold insertKey
    have hne : ¬ k = k2 := by
      intro he
      subst he
      have h1 := hacc.1
      rw [strLtB_irrefl] at h1
      exact absurd h1 (by simp)
    have hnlt : ¬ strLtB k k2 = true := by
      rw [strLtB_asymm k2 k hacc.1]
      simp
    rw [if_neg hne, if_neg hnlt]
    show JObj.cons k2 v2 (insertKey k v r) = JObj.cons k2 v2 (appendO r (.cons k v .nil))
    rw [insertKey_append_gt r k v hacc.2]

/-- Helper: folding an already key-sorted member list into a map is the
identity (up to the accumulator). -/
theorem canonMapAux_sorted : ∀ (input acc : JObj), canonO input →
    (∀ k v rest, input = .cons k v rest → allKeysLtKey acc k) →
    canonMapAux acc input = appendO acc input
  | .nil, acc, _, _ => (appendO_nil acc).symm
  | .cons k v rest, acc, hc, hlt => by
    obtain ⟨hv, hhd, hrest⟩ := hc
    show canonMapAux (insertKey k v acc) rest = appendO acc (.cons k v rest)
    rw [insertKey_append_gt acc k v (hlt k v rest rfl)]
    rw [canonMapAux_sorted rest (appendO acc (.cons k v .nil)) hrest ?_]
    · rw [appendO_assoc]
      rfl
    · intro k2 v2 r2 heq
      subst heq
      have hk2 : strLtB k k2 = true := hhd
      refine allKeysLtKey_append _ _ _ ?_ ⟨hk2, trivial⟩
      exact allKeysLtKey_mono acc k k2 (hlt k v _ rfl) hk2

/-- Helper: decoding a key-sorted member list is the identity. -/
theorem canonMap_id (kvs : JObj) (hc : canonO kvs) : canonMap kvs = kvs := by
  rw [canonMap, canonMapAux_sorted kvs .nil hc (fun _ _ _ _ => trivial)]
  rfl

/-- Helper: digit characters are digits. -/
theorem isDigitC_digitChar : ∀ d : Nat, isDigitC (digitChar d) = true := by
  intro d
  rcases d with _ | _ | _ | _ | _ | _ | _ | _ | _ | d <;> rfl

/-- Helper: digit characters decode to their value. -/
theorem digitVal_digitChar : ∀ d : Nat, d < 10 → digitVal (digitChar d) = d := by
  intro d h
  interval_cases d <;> rfl

/-- Helper: the digit renderer never returns an empty string with
positive fuel. -/
theorem natDigitsF_len_pos : ∀ (f n : Nat), 0 < f → 0 < (natDigitsF f n).length
  | 0, _, h => absurd h (by omega)
  | f + 1, n, _ => by
    unfold natDigitsF
    by_cases h10 : n < 10
    · rw [if_pos h10]
      simp
    · rw [if_neg h10]
      simp

/-- Helper: every rendered character is a digit. -/
theorem natDigitsF_digits : ∀ (f n : Nat), ∀ c ∈ natDigitsF f n, isDigitC c = true
  | 0, _, _, hc => by simp [natDigitsF] at hc
  | f + 1, n, c, hc => by
    unfold natDigitsF at hc
    by_cases h10 : n < 10
    · rw [if_pos h10] at hc
      simp at hc
      rw [hc]
      exact isDigitC_digitChar n
    · rw [if_neg h10] at hc
      rcases List.mem_append.mp hc with hx | hx
      · exact natDigitsF_digits f (n / 10) c hx
      · simp at hx
        rw [hx]
        exact isDigitC_digitChar (n % 10)

/-- Helper: folding the rendered digits reconstructs the number. -/
theorem natDigitsF_foldl : ∀ (f n A : Nat), n < f →
    (natDigitsF f n).foldl (fun a c => 10 * a + digitVal c) A
      = A * 10 ^ (natDigitsF f n).length + n
  | 0, _, _, h => absurd h (by omega)
  | f + 1, n, A, h => by
    unfold natDigitsF
    by_cases h10 : n < 10
    · rw [if_pos h10]
      show 10 * A + digitVal (digitChar n) = A * 10 ^ (List.length [digitChar n]) + n
      rw [digitVal_digitChar n h10]
      simp [pow_one]
      omega
    · rw [if_neg h10]
      rw [List.foldl_append]
      have hdivlt : n / 10 < f := by omega
      rw [natDigitsF_foldl f (n / 10) A hdivlt]
      show 10 * (A * 10 ^ (natDigitsF f (n / 10)).length + n / 10) + digitVal (digitChar (n % 10))
          = A * 10 ^ (natDigitsF f (n / 10) ++ [digitChar (n % 10)]).length + n
      rw [digitVal_digitChar (n % 10) (by omega)]
      rw [List.length_append, List.length_cons, List.length_nil]
      calc 10 * (A * 10 ^ (natDigitsF f (n / 10)).length + n / 10) + n % 10
          = A * 10 ^ (natDigitsF f (n / 10)).length * 10 + (10 * (n / 10) + n % 10) := by ring
        _ = A * 10 ^ ((natDigitsF f (n / 10)).length + (0 + 1)) + n := by
            rw [Nat.div_add_mod]
            rw [show (natDigitsF f (n / 10)).length + (0 + 1)
                = (natDigitsF f (n / 10)).length + 1 from by omega]
            rw [pow_succ]
            ring

/-- Helper: a positive number never renders with a leading zero. -/
theorem natDigitsF_head_ne_zero : ∀ (f n : Nat), 1 ≤ n → n < f →
    (natDigitsF f n).head? ≠ some '0'
  | 0, _, _, hf => absurd hf (by omega)
  | f + 1, n, h1, hf => by
    unfold natDigitsF
    by_cases h10 : n < 10
    · rw [if_pos h10]
      interval_cases n <;> decide
    · rw [if_neg h10]
      have hpos : 0 < (natDigitsF f (n / 10)).length := natDigitsF_len_pos f (n / 10) (by omega)
      rcases hX : natDigitsF f (n / 10) with _ | ⟨c, t⟩
      · rw [hX] at hpos
        simp at hpos
      · rw [List.cons_append, List.head?_cons]
        have := natDigitsF_head_ne_zero f (n / 10) (by omega) (by omega)
        rw [hX, List.head?_cons] at this
        exact this

/-- Helper: dropWhile skips a satisfying prefix into the suffix. -/
theorem dropWhile_all_append {p : Char → Bool} : ∀ {l r : Str},
    (∀ x ∈ l, p x = true) → (l ++ r).dropWhile p = r.dropWhile p
  | [], _, _ => rfl
  | c :: t, r, h => by
    rw [List.cons_append, List.dropWhile_cons, if_pos (by rw [h c (List.mem_cons_self c t)])]
    exact dropWhile_all_append (fun x hx => h x (List.mem_cons_of_mem c hx))

/-- Helper: whitespace before a token is skipped. -/
theorem skipWs_ws_append (W X : Str) (h : ∀ c ∈ W, isJsonWs c = true) :
    skipWs (W ++ X) = skipWs X :=
  dropWhile_all_append h

/-- Helper: a non-whitespace head stops whitespace skipping. -/
theorem skipWs_cons_not (c : Char) (t : Str) (h : isJsonWs c = false) :
    skipWs (c :: t) = c :: t := by
  rw [skipWs, List.dropWhile_cons, if_neg (by rw [h]; simp)]

/-- Helper: indentation is whitespace. -/
theorem ind_ws (d : Nat) : ∀ c ∈ ind d, isJsonWs c = true := by
  intro c hc
  rw [ind] at hc
  rw [List.eq_of_mem_replicate hc]
  rfl

/-- Helper: a digit character is none of the token-opening or structural
characters and is not whitespace. -/
theorem isDigitC_props (c : Char) (h : isDigitC c = true) :
    isJsonWs c = false ∧ c ≠ 'n' ∧ c ≠ 't' ∧ c ≠ 'f' ∧ c ≠ dquote ∧ c ≠ '[' ∧ c ≠ lcurl
      ∧ c ≠ ']' ∧ c ≠ rcurl ∧ c ≠ ',' ∧ c ≠ '-' := by
  rw [isDigitC, Bool.and_eq_true, decide_eq_true_eq, decide_eq_true_eq] at h
  refine ⟨?_, ?_, ?_, ?_, ?_, ?_, ?_, ?_, ?_, ?_, ?_⟩
  · cases hw : isJsonWs c
    · rfl
    · rw [isJsonWs] at hw
      simp only [Bool.or_eq_true, decide_eq_true_eq] at hw
      rcases hw with ((rfl | rfl) | rfl) | rfl <;> exact absurd h (by decide)
  all_goals intro heq
  all_goals subst heq
  all_goals exact absurd h (by decide)

/-- Helper: the printed form of a number starts with a minus sign or a
digit. -/
theorem printInt_head (n : Int) :
    ∃ c t, printInt n = c :: t ∧ (c = '-' ∨ isDigitC c = true) := by
  rw [printInt]
  by_cases hn : n < 0
  · rw [if_pos hn]
    exact ⟨'-', _, rfl, .inl rfl⟩
  · rw [if_neg hn]
    have hpos : 0 < (natDigits n.natAbs).length := natDigitsF_len_pos _ _ (by omega)
    rcases hX : natDigits n.natAbs with _ | ⟨c, t⟩
    · rw [hX] at hpos
      simp at hpos
    · refine ⟨c, t, rfl, .inr ?_⟩
      have := natDigitsF_digits (n.natAbs + 1) n.natAbs c
      rw [show natDigitsF (n.natAbs + 1) n.natAbs = natDigits n.natAbs from rfl, hX] at this
      exact this (List.mem_cons_self c t)

/-- Helper: the printed form of any value starts with a non-whitespace
character that is not a closing bracket or brace. -/
theorem printVal_head (v : JVal) (d : Nat) :
    ∃ c t, printVal v d = c :: t ∧ isJsonWs c = false ∧ c ≠ ']' ∧ c ≠ rcurl := by
  cases v with
  | null => exact ⟨'n', _, rfl, by decide, by decide, by decide⟩
  | bool b =>
    cases b
    · exact ⟨'f', _, rfl, by decide, by decide, by decide⟩
    · exact ⟨'t', _, rfl, by decide, by decide, by decide⟩
  | num n =>
    obtain ⟨c, t, hct, hc⟩ := printInt_head n
    refine ⟨c, t, hct, ?_, ?_, ?_⟩
    · rcases hc with rfl | hd
      · rfl
      · exact (isDigitC_props c hd).1
    · rcases hc with rfl | hd
      · decide
      · exact (isDigitC_props c hd).2.2.2.2.2.2.2.1
    · rcases hc with rfl | hd
      · decide
      · exact (isDigitC_props c hd).2.2.2.2.2.2.2.2.1
  | str s => exact ⟨dquote, _, rfl, by decide, by decide, by decide⟩
  | arr xs =>
    cases xs
    · exact ⟨'[', _, rfl, by decide, by decide, by decide⟩
    · exact ⟨'[', _, rfl, by decide, by decide, by decide⟩
  | obj kvs =>
    cases kvs
    · exact ⟨lcurl, _, rfl, by decide, by decide, by decide⟩
    · exact ⟨lcurl, _, rfl, by decide, by decide, by decide⟩

/-- Helper: the printed form of any value is nonempty. -/
theorem printVal_len_pos (v : JVal) (d : Nat) : 0 < (printVal v d).length := by
  obtain ⟨c, t, hct, _⟩ := printVal_head v d
  rw [hct]
  simp

/-- Helper: a remainder with no leading digit contributes nothing to a
digit run. -/
theorem takeWhile_digits_stop (rest : Str) (h : noDigitHead rest) :
    rest.takeWhile isDigitC = [] := by
  rcases rest with _ | ⟨c, t⟩
  · rfl
  · rw [List.takeWhile_cons, if_neg]
    simp [h c rfl]

/-- Helper: the number parser inverts the number printer when the
remainder does not begin with a digit. -/
theorem parseNum_print (n : Int) (rest : Str) (hrest : noDigitHead rest) :
    parseNum (printInt n ++ rest) = .ok (n, rest) := by
  have hdig : ∀ c ∈ natDigits n.natAbs, isDigitC c = true :=
    natDigitsF_digits (n.natAbs + 1) n.natAbs
  have hlen : 0 < (natDigits n.natAbs).length :=
    natDigitsF_len_pos (n.natAbs + 1) n.natAbs (by omega)
  have hDne : natDigits n.natAbs ≠ [] := List.length_pos.mp hlen
  have htw : (natDigits n.natAbs ++ rest).takeWhile isDigitC = natDigits n.natAbs := by
    rw [takeWhile_all_append hdig, takeWhile_digits_stop rest hrest, List.append_nil]
  have hdrop : (natDigits n.natAbs ++ rest).drop (natDigits n.natAbs).length = rest :=
    List.drop_left _ _
  have hfold : (natDigits n.natAbs).foldl (fun a c => 10 * a + digitVal c) 0 = n.natAbs := by
    have := natDigitsF_foldl (n.natAbs + 1) n.natAbs 0 (by omega)
    simpa using this
  have hzero : ¬(1 < (natDigits n.natAbs).length ∧ (natDigits n.natAbs).head? = some '0') := by
    by_cases h10 : n.natAbs < 10
    · rintro ⟨hl, _⟩
      have h1 : natDigits n.natAbs = [digitChar n.natAbs] := by
        show natDigitsF (n.natAbs + 1) n.natAbs = _
        unfold natDigitsF
        rw [if_pos h10]
      rw [h1] at hl
      simp at hl
    · rintro ⟨_, hh⟩
      exact natDigitsF_head_ne_zero (n.natAbs + 1) n.natAbs (by omega) (by omega) hh
  by_cases hn : n < 0
  · rw [printInt, if_pos hn, List.cons_append]
    unfold parseNum
    simp only [List.head?_cons, List.drop_succ_cons, List.drop_zero]
    simp only [decide_True, if_true, htw, hdrop, hfold]
    rw [if_neg hDne, if_neg hzero]
    congr 1
    congr 1
    omega
  · have hs : printInt n ++ rest = natDigits n.natAbs ++ rest := by
      rw [printInt, if_neg hn]
    rw [hs]
    have hhead : ∃ c t, natDigits n.natAbs = c :: t ∧ isDigitC c = true := by
      rcases hX : natDigits n.natAbs with _ | ⟨c, t⟩
      · exact absurd hX hDne
      · exact ⟨c, t, rfl, hdig c (hX ▸ List.mem_cons_self c t)⟩
    obtain ⟨c, t, hct, hcd⟩ := hhead
    unfold parseNum
    rw [hct, List.cons_append, List.head?_cons]
    rw [show (decide (some c = some '-')) = false from by
      simp [(isDigitC_props c hcd).2.2.2.2.2.2.2.2.2.2]]
    rw [← List.cons_append, ← hct]
    simp only [Bool.false_eq_true, if_false, htw, hdrop, hfold]
    rw [if_neg hDne, if_neg hzero]
    congr 1
    congr 1
    omega

/-- Helper: the string-body parser inverts the escaper, consuming the
closing quote. -/
theorem parseStrBody_print : ∀ (s rest : Str),
    parseStrBody (s.flatMap escapeChar ++ dquote :: rest) = .ok (s, rest)
  | [], rest => by
    rw [show ([] : Str).flatMap escapeChar = [] from rfl, List.nil_append]
    conv_lhs => rw [parseStrBody.eq_def]
    simp only []
    rw [if_pos trivial]
  | c :: t, rest => by
    rw [show (c :: t).flatMap escapeChar = escapeChar c ++ t.flatMap escapeChar from rfl]
    have IH := parseStrBody_print t rest
    by_cases h1 : c = dquote
    · subst h1
      rw [show escapeChar dquote = [bslash, dquote] from rfl]
      simp only [List.cons_append, List.nil_append]
      rw [parseStrBody, if_neg (by decide), if_pos rfl]
      rw [IH]
      rfl
    · by_cases h2 : c = bslash
      · subst h2
        rw [show escapeChar bslash = [bslash, bslash] from rfl]
        simp only [List.cons_append, List.nil_append]
        rw [parseStrBody, if_neg (by decide), if_pos rfl]
        rw [IH]
        rfl
      · by_cases h3 : c = '\n'
        · subst h3
          rw [show escapeChar '\n' = [bslash, 'n'] from rfl]
          simp only [List.cons_append, List.nil_append]
          rw [parseStrBody, if_neg (by decide), if_pos rfl]
          rw [IH]
          rfl
        · by_cases h4 : c = '\t'
          · subst h4
            rw [show escapeChar '\t' = [bslash, 't'] from rfl]
            simp only [List.cons_append, List.nil_append]
            rw [parseStrBody, if_neg (by decide), if_pos rfl]
            rw [IH]
            rfl
          · by_cases h5 : c = '\r'
            · subst h5
              rw [show escapeChar '\r' = [bslash, 'r'] from rfl]
              simp only [List.cons_append, List.nil_append]
              rw [parseStrBody, if_neg (by decide), if_pos rfl]
              rw [IH]
              rfl
            · rw [escapeChar, if_neg h1, if_neg h2, if_neg h3, if_neg h4, if_neg h5]
              simp only [List.cons_append, List.nil_append]
              conv_lhs => rw [parseStrBody.eq_def]
              simp only []
              rw [if_neg h1, if_neg h2]
              rw [IH]

/-- Helper: unfolding the printer at null. -/
theorem printVal_null (d : Nat) : printVal .null d = strL "null" := by
  conv_lhs => rw [printVal.eq_def]

/-- Helper: unfolding the printer at true. -/
theorem printVal_true (d : Nat) : printVal (.bool true) d = strL "true" := by
  conv_lhs => rw [printVal.eq_def]

/-- Helper: unfolding the printer at false. -/
theorem printVal_false (d : Nat) : printVal (.bool false) d = strL "false" := by
  conv_lhs => rw [printVal.eq_def]

/-- Helper: unfolding the printer at a number. -/
theorem printVal_num (n : Int) (d : Nat) : printVal (.num n) d = printInt n := by
  conv_lhs => rw [printVal.eq_def]

/-- Helper: unfolding the printer at a string. -/
theorem printVal_str (s : Str) (d : Nat) : printVal (.str s) d = printStr s := by
  conv_lhs => rw [printVal.eq_def]

/-- Helper: unfolding the printer at the empty array. -/
theorem printVal_arr_nil (d : Nat) : printVal (.arr .nil) d = strL "[]" := by
  conv_lhs => rw [printVal.eq_def]

/-- Helper: unfolding the printer at a nonempty array. -/
theorem printVal_arr_cons (x : JVal) (xs : JList) (d : Nat) :
    printVal (.arr (.cons x xs)) d
      = '[' :: '\n' :: (printItems (.cons x xs) (d + 1) ++ '\n' :: (ind d ++ [']'])) := by
  conv_lhs => rw [printVal.eq_def]

/-- Helper: unfolding the printer at the empty object. -/
theorem printVal_obj_nil (d : Nat) : printVal (.obj .nil) d = [lcurl, rcurl] := by
  conv_lhs => rw [printVal.eq_def]

/-- Helper: unfolding the printer at a nonempty object. -/
theorem printVal_obj_cons (k : Str) (v : JVal) (kvs : JObj) (d : Nat) :
    printVal (.obj (.cons k v kvs)) d
      = lcurl :: '\n' :: (printMembers (.cons k v kvs) (d + 1) ++ '\n' :: (ind d ++ [rcurl])) := by
  conv_lhs => rw [printVal.eq_def]

/-- Helper: a nonempty item sequence prints as indentation, the first
value, then the printed tail. -/
theorem printItems_cons : ∀ (x : JVal) (xs : JList) (d : Nat),
    printItems (.cons x xs) d = ind d ++ (printVal x d ++ itemsTail xs d)
  | x, .nil, d => by
    conv_lhs => rw [printItems.eq_def]
    simp only []
    rw [show itemsTail .nil d = [] from rfl, List.append_nil]
  | x, .cons y ys, d => by
    conv_lhs => rw [printItems.eq_def]
    simp only []
    rw [show itemsTail (.cons y ys) d = ',' :: '\n' :: printItems (.cons y ys) d from rfl]
    simp only [List.append_assoc]

/-- Helper: a nonempty member sequence prints as indentation, the first
key/value pair, then the printed tail. -/
theorem printMembers_cons : ∀ (k : Str) (v : JVal) (kvs : JObj) (d : Nat),
    printMembers (.cons k v kvs) d
      = ind d ++ (printStr k ++ ':' :: ' ' :: (printVal v d ++ membersTail kvs d))
  | k, v, .nil, d => by
    conv_lhs => rw [printMembers.eq_def]
    simp only []
    rw [show membersTail .nil d = [] from rfl, List.append_nil]
    simp only [List.append_assoc]
  | k, v, .cons k2 v2 kvs2, d => by
    conv_lhs => rw [printMembers.eq_def]
    simp only []
    rw [show membersTail (.cons k2 v2 kvs2) d
      = ',' :: '\n' :: printMembers (.cons k2 v2 kvs2) d from rfl]
    simp only [List.append_assoc, List.cons_append]

/-- Helper: the text after a printed array element starts with a comma or
a newline, never a digit. -/
theorem itemsTail_noDigit (xs : JList) (d : Nat) (Y : Str) :
    noDigitHead (itemsTail xs d ++ '\n' :: Y) := by
  cases xs with
  | nil =>
    intro c hc
    rw [show itemsTail JList.nil d = [] from rfl, List.nil_append, List.head?_cons] at hc
    injection hc with h
    rw [← h]
    rfl
  | cons y ys =>
    intro c hc
    rw [show itemsTail (JList.cons y ys) d = ',' :: '\n' :: printItems (.cons y ys) d from rfl,
      List.cons_append, List.head?_cons] at hc
    injection hc with h
    rw [← h]
    rfl

/-- Helper: the text after a printed object member starts with a comma or
a newline, never a digit. -/
theorem membersTail_noDigit (kvs : JObj) (d : Nat) (Y : Str) :
    noDigitHead (membersTail kvs d ++ '\n' :: Y) := by
  cases kvs with
  | nil =>
    intro c hc
    rw [show membersTail JObj.nil d = [] from rfl, List.nil_append, List.head?_cons] at hc
    injection hc with h
    rw [← h]
    rfl
  | cons k2 v2 kvs2 =>
    intro c hc
    rw [show membersTail (JObj.cons k2 v2 kvs2) d
        = ',' :: '\n' :: printMembers (.cons k2 v2 kvs2) d from rfl,
      List.cons_append, List.head?_cons] at hc
    injection hc with h
    rw [← h]
    rfl

/-- Helper: a newline followed by indentation is whitespace. -/
theorem nl_ind_ws (d : Nat) : ∀ c ∈ ('\n' :: ind d), isJsonWs c = true := by
  intro c hc
  rcases List.mem_cons.mp hc with rfl | h
  · rfl
  · exact ind_ws d c h

/-- Helper: a newline on top of whitespace is whitespace. -/
theorem nl_ws_cons (W : Str) (hW : ∀ c ∈ W, isJsonWs c = true) :
    ∀ c ∈ ('\n' :: W), isJsonWs c = true := by
  intro c hc
  rcases List.mem_cons.mp hc with rfl | h
  · rfl
  · exact hW c h

/-- Helper: a printed string followed by anything, with the leading quote
exposed. -/
theorem printStr_cons (k : Str) (X : Str) :
    printStr k ++ X = dquote :: (k.flatMap escapeChar ++ (dquote :: X)) := by
  rw [printStr]
  simp only [List.cons_append, List.append_assoc, List.singleton_append, List.nil_append]

/-- The decoder inverts the printer: simultaneously for values, array
element lists and object member lists, by induction on the parser fuel.
The value statement allows an arbitrary whitespace prefix and any
remainder that does not begin with a digit. -/
theorem RT_all : ∀ fuel : Nat,
    (∀ (v : JVal) (d : Nat) (W rest : Str), canonV v → (∀ c ∈ W, isJsonWs c = true) →
      noDigitHead rest → (printVal v d).length < fuel →
      parseVal fuel (W ++ (printVal v d ++ rest)) = .ok (v, rest)) ∧
    (∀ (x : JVal) (xs : JList) (d : Nat) (W W2 rest : Str), canonL (.cons x xs) →
      (∀ c ∈ W, isJsonWs c = true) → (∀ c ∈ W2, isJsonWs c = true) →
      (printVal x d).length + (itemsTail xs d).length + 1 < fuel →
      parseElems fuel (W ++ (printVal x d ++ (itemsTail xs d ++ '\n' :: (W2 ++ ']' :: rest))))
        = .ok (.cons x xs, rest)) ∧
    (∀ (k : Str) (v : JVal) (kvs : JObj) (d : Nat) (W W2 rest : Str), canonO (.cons k v kvs) →
      (∀ c ∈ W, isJsonWs c = true) → (∀ c ∈ W2, isJsonWs c = true) →
      (printStr k).length + (printVal v d).length + (membersTail kvs d).length + 1 < fuel →
      parseMembers fuel
          (W ++ (printStr k ++ ':' :: ' ' ::
            (printVal v d ++ (membersTail kvs d ++ '\n' :: (W2 ++ rcurl :: rest)))))
        = .ok (.cons k v kvs, rest))
  | 0 => by
    refine ⟨?_, ?_, ?_⟩
    · intro v d W rest _ _ _ hb
      exact absurd hb (by omega)
    · intro x xs d W W2 rest _ _ _ hb
      exact absurd hb (by omega)
    · intro k v kvs d W W2 rest _ _ _ hb
      exact absurd hb (by omega)
  | F + 1 => by
    obtain ⟨IHval, IHitems, IHmembers⟩ := RT_all F
    refine ⟨?_, ?_, ?_⟩
    · intro v d W rest hcan hW hrest hfuel
      cases v with
      | null =>
        rw [printVal_null]
        have hskip : skipWs (W ++ (strL "null" ++ rest)) = 'n' :: (strL "ull" ++ rest) := by
          rw [skipWs_ws_append W _ hW,
            show strL "null" ++ rest = 'n' :: (strL "ull" ++ rest) from rfl,
            skipWs_cons_not _ _ (by decide)]
        conv_lhs => rw [parseVal.eq_def]
        simp only []
        rw [hskip]
        simp only []
        rw [if_pos trivial]
        rw [show strL "ull" ++ rest = 'u' :: 'l' :: 'l' :: rest from rfl]
        simp only [List.take_succ_cons, List.take_zero, List.drop_succ_cons, List.drop_zero]
        rw [if_pos (by decide)]
      | bool b =>
        cases b with
        | false =>
          rw [printVal_false]
          have hskip : skipWs (W ++ (strL "false" ++ rest)) = 'f' :: (strL "alse" ++ rest) := by
            rw [skipWs_ws_append W _ hW,
              show strL "false" ++ rest = 'f' :: (strL "alse" ++ rest) from rfl,
              skipWs_cons_not _ _ (by decide)]
          conv_lhs => rw [parseVal.eq_def]
          simp only []
          rw [hskip]
          simp only []
          rw [if_neg (by decide : ¬('f' = 'n')), if_neg (by decide : ¬('f' = 't')),
            if_pos trivial]
          rw [show strL "alse" ++ rest = 'a' :: 'l' :: 's' :: 'e' :: rest from rfl]
          simp only [List.take_succ_cons, List.take_zero, List.drop_succ_cons, List.drop_zero]
          rw [if_pos (by decide)]
        | true =>
          rw [printVal_true]
          have hskip : skipWs (W ++ (strL "true" ++ rest)) = 't' :: (strL "rue" ++ rest) := by
            rw [skipWs_ws_append W _ hW,
              show strL "true" ++ rest = 't' :: (strL "rue" ++ rest) from rfl,
              skipWs_cons_not _ _ (by decide)]
          conv_lhs => rw [parseVal.eq_def]
          simp only []
          rw [hskip]
          simp only []
          rw [if_neg (by decide : ¬('t' = 'n')), if_pos trivial]
          rw [show strL "rue" ++ rest = 'r' :: 'u' :: 'e' :: rest from rfl]
          simp only [List.take_succ_cons, List.take_zero, List.drop_succ_cons, List.drop_zero]
          rw [if_pos (by decide)]
      | num n =>
        rw [printVal_num]
        obtain ⟨c, t, hct, hc⟩ := printInt_head n
        have hcw : isJsonWs c = false := by
          rcases hc with rfl | hd
          · decide
          · exact (isDigitC_props c hd).1
        have hskip : skipWs (W ++ (printInt n ++ rest)) = c :: (t ++ rest) := by
          rw [skipWs_ws_append W _ hW, hct, List.cons_append, skipWs_cons_not _ _ hcw]
        conv_lhs => rw [parseVal.eq_def]
        simp only []
        rw [hskip]
        simp only []
        have hn : ¬c = 'n' := by
          rcases hc with rfl | hd
          · decide
          · exact (isDigitC_props c hd).2.1
        have ht : ¬c = 't' := by
          rcases hc with rfl | hd
          · decide
          · exact (isDigitC_props c hd).2.2.1
        have hf : ¬c = 'f' := by
          rcases hc with rfl | hd
          · decide
          · exact (isDigitC_props c hd).2.2.2.1
        have hq : ¬c = dquote := by
          rcases hc with rfl | hd
          · decide
          · exact (isDigitC_props c hd).2.2.2.2.1
        rw [if_neg hn, if_neg ht, if_neg hf, if_neg hq, if_pos (by exact hc)]
        rw [show c :: (t ++ rest) = (c :: t) ++ rest from rfl, ← hct]
        rw [parseNum_print n rest hrest]
      | str s =>
        rw [printVal_str]
        have hskip : skipWs (W ++ (printStr s ++ rest))
            = dquote :: (s.flatMap escapeChar ++ (dquote :: rest)) := by
          rw [skipWs_ws_append W _ hW, printStr_cons, skipWs_cons_not _ _ (by decide)]
        conv_lhs => rw [parseVal.eq_def]
        simp only []
        rw [hskip]
        simp only []
        rw [if_neg (by decide : ¬(dquote = 'n')), if_neg (by decide : ¬(dquote = 't')),
          if_neg (by decide : ¬(dquote = 'f')), if_pos trivial]
        rw [parseStrBody_print s rest]
      | arr xs =>
        cases xs with
        | nil =>
          rw [printVal_arr_nil]
          have hskip : skipWs (W ++ (strL "[]" ++ rest)) = '[' :: (']' :: rest) := by
            rw [skipWs_ws_append W _ hW,
              show strL "[]" ++ rest = '[' :: (']' :: rest) from rfl,
              skipWs_cons_not _ _ (by decide)]
          conv_lhs => rw [parseVal.eq_def]
          simp only []
          rw [hskip]
          simp only []
          rw [if_neg (by decide : ¬('[' = 'n')), if_neg (by decide : ¬('[' = 't')),
            if_neg (by decide : ¬('[' = 'f')), if_neg (by decide : ¬('[' = dquote)),
            if_neg (by decide : ¬('[' = '-' ∨ isDigitC '[' = true)), if_pos trivial]
          rw [skipWs_cons_not _ _ (by decide)]
          simp only []
          rw [if_pos trivial]
        | cons x xs2 =>
          have hl : canonL (.cons x xs2) := hcan
          rw [printVal_arr_cons, printItems_cons] at hfuel ⊢
          simp only [List.cons_append, List.append_assoc, List.nil_append,
            List.singleton_append] at hfuel ⊢
          simp only [List.length_cons, List.length_append] at hfuel
          obtain ⟨c, t, hct, hcws, hcbr, _⟩ := printVal_head x (d + 1)
          have hskip : skipWs (W ++ '[' :: '\n' :: (ind (d + 1) ++ (printVal x (d + 1) ++
              (itemsTail xs2 (d + 1) ++ '\n' :: (ind d ++ ']' :: rest)))))
              = '[' :: ('\n' :: (ind (d + 1) ++ (printVal x (d + 1) ++
                (itemsTail xs2 (d + 1) ++ '\n' :: (ind d ++ ']' :: rest))))) := by
            rw [skipWs_ws_append W _ hW, skipWs_cons_not _ _ (by decide)]
          conv_lhs => rw [parseVal.eq_def]
          simp only []
          rw [hskip]
          simp only []
          rw [if_neg (by decide : ¬('[' = 'n')), if_neg (by decide : ¬('[' = 't')),
            if_neg (by decide : ¬('[' = 'f')), if_neg (by decide : ¬('[' = dquote)),
            if_neg (by decide : ¬('[' = '-' ∨ isDigitC '[' = true)), if_pos trivial]
          have hskip2 : skipWs ('\n' :: (ind (d + 1) ++ (printVal x (d + 1) ++
              (itemsTail xs2 (d + 1) ++ '\n' :: (ind d ++ ']' :: rest)))))
              = c :: (t ++ (itemsTail xs2 (d + 1) ++ '\n' :: (ind d ++ ']' :: rest))) := by
            rw [show '\n' :: (ind (d + 1) ++ (printVal x (d + 1) ++
                (itemsTail xs2 (d + 1) ++ '\n' :: (ind d ++ ']' :: rest))))
              = ('\n' :: ind (d + 1)) ++ (printVal x (d + 1) ++
                (itemsTail xs2 (d + 1) ++ '\n' :: (ind d ++ ']' :: rest))) from rfl]
            rw [skipWs_ws_append _ _ (nl_ind_ws (d + 1)), hct, List.cons_append,
              skipWs_cons_not _ _ hcws]
          rw [hskip2]
          simp only []
          rw [if_neg hcbr]
          rw [show c :: (t ++ (itemsTail xs2 (d + 1) ++ '\n' :: (ind d ++ ']' :: rest)))
            = (c :: t) ++ (itemsTail xs2 (d + 1) ++ '\n' :: (ind d ++ ']' :: rest)) from rfl,
            ← hct]
          have HI := IHitems x xs2 (d + 1) [] (ind d) rest hl
            (by intro a ha; exact absurd ha (List.not_mem_nil a)) (ind_ws d)
            (by have := printVal_len_pos x (d + 1); omega)
          simp only [List.nil_append] at HI
          rw [HI]
      | obj kvs =>
        cases kvs with
        | nil =>
          rw [printVal_obj_nil]
          have hskip : skipWs (W ++ ([lcurl, rcurl] ++ rest)) = lcurl :: (rcurl :: rest) := by
            rw [skipWs_ws_append W _ hW,
              show ([lcurl, rcurl] : Str) ++ rest = lcurl :: (rcurl :: rest) from rfl,
              skipWs_cons_not _ _ (by decide)]
          conv_lhs => rw [parseVal.eq_def]
          simp only []
          rw [hskip]
          simp only []
          rw [if_neg (by decide : ¬(lcurl = 'n')), if_neg (by decide : ¬(lcurl = 't')),
            if_neg (by decide : ¬(lcurl = 'f')), if_neg (by decide : ¬(lcurl = dquote)),
            if_neg (by decide : ¬(lcurl = '-' ∨ isDigitC lcurl = true)),
            if_neg (by decide : ¬(lcurl = '[')), if_pos trivial]
          rw [skipWs_cons_not _ _ (by decide)]
          simp only []
          rw [if_pos trivial]
        | cons k v kvs2 =>
          have ho : canonO (.cons k v kvs2) := hcan
          rw [printVal_obj_cons, printMembers_cons] at hfuel ⊢
          simp only [List.cons_append, List.append_assoc, List.nil_append,
            List.singleton_append] at hfuel ⊢
          simp only [List.length_cons, List.length_append] at hfuel
          have hskip : skipWs (W ++ lcurl :: '\n' :: (ind (d + 1) ++ (printStr k ++
              ':' :: ' ' :: (printVal v (d + 1) ++
                (membersTail kvs2 (d + 1) ++ '\n' :: (ind d ++ rcurl :: rest))))))
              = lcurl :: ('\n' :: (ind (d + 1) ++ (printStr k ++
                ':' :: ' ' :: (printVal v (d + 1) ++
                  (membersTail kvs2 (d + 1) ++ '\n' :: (ind d ++ rcurl :: rest)))))) := by
            rw [skipWs_ws_append W _ hW, skipWs_cons_not _ _ (by decide)]
          conv_lhs => rw [parseVal.eq_def]
          simp only []
          rw [hskip]
          simp only []
          rw [if_neg (by decide : ¬(lcurl = 'n')), if_neg (by decide : ¬(lcurl = 't')),
            if_neg (by decide : ¬(lcurl = 'f')), if_neg (by decide : ¬(lcurl = dquote)),
            if_neg (by decide : ¬(lcurl = '-' ∨ isDigitC lcurl = true)),
            if_neg (by decide : ¬(lcurl = '[')), if_pos trivial]
          have hskip2 : skipWs ('\n' :: (ind (d + 1) ++ (printStr k ++
              ':' :: ' ' :: (printVal v (d + 1) ++
                (membersTail kvs2 (d + 1) ++ '\n' :: (ind d ++ rcurl :: rest))))))
              = dquote :: (k.flatMap escapeChar ++ (dquote :: ':' :: ' ' :: (printVal v (d + 1) ++
                (membersTail kvs2 (d + 1) ++ '\n' :: (ind d ++ rcurl :: rest))))) := by
            rw [show '\n' :: (ind (d + 1) ++ (printStr k ++
                ':' :: ' ' :: (printVal v (d + 1) ++
                  (membersTail kvs2 (d + 1) ++ '\n' :: (ind d ++ rcurl :: rest)))))
              = ('\n' :: ind (d + 1)) ++ (printStr k ++
                ':' :: ' ' :: (printVal v (d + 1) ++
                  (membersTail kvs2 (d + 1) ++ '\n' :: (ind d ++ rcurl :: rest)))) from rfl]
            rw [skipWs_ws_append _ _ (nl_ind_ws (d + 1)), printStr_cons,
              skipWs_cons_not _ _ (by decide)]
          rw [hskip2]
          simp only []
          rw [if_neg (by decide : ¬(dquote = rcurl))]
          have HM := IHmembers k v kvs2 (d + 1) [] (ind d) rest ho
            (by intro a ha; exact absurd ha (List.not_mem_nil a)) (ind_ws d)
            (by have := printVal_len_pos v (d + 1); omega)
          simp only [List.nil_append] at HM
          rw [printStr_cons] at HM
          rw [HM]
          simp only []
          rw [canonMap_id _ ho]
    · intro x xs d W W2 rest hcan hW hW2 hfuel
      have hcx : canonV x := hcan.1
      conv_lhs => rw [parseElems.eq_def]
      simp only []
      have HV := IHval x d W (itemsTail xs d ++ '\n' :: (W2 ++ ']' :: rest)) hcx hW
        (itemsTail_noDigit xs d (W2 ++ ']' :: rest)) (by omega)
      rw [HV]
      simp only []
      cases xs with
      | nil =>
        rw [show itemsTail JList.nil d = [] from rfl, List.nil_append]
        rw [show ('\n' :: (W2 ++ (']' :: rest))) = ('\n' :: W2) ++ (']' :: rest) from rfl]
        rw [skipWs_ws_append _ _ (nl_ws_cons W2 hW2), skipWs_cons_not _ _ (by decide)]
        simp only []
        rw [if_neg (by decide : ¬(']' = ',')), if_pos trivial]
      | cons y ys =>
        rw [show itemsTail (JList.cons y ys) d
          = ',' :: '\n' :: printItems (.cons y ys) d from rfl] at hfuel ⊢
        rw [printItems_cons] at hfuel ⊢
        simp only [List.length_cons, List.length_append] at hfuel
        simp only [List.cons_append, List.append_assoc]
        rw [skipWs_cons_not _ _ (by decide)]
        simp only []
        rw [if_pos trivial]
        have HI := IHitems y ys d ('\n' :: ind d) W2 rest hcan.2 (nl_ind_ws d) hW2
          (by have := printVal_len_pos x d; omega)
        simp only [List.cons_append, List.append_assoc] at HI
        rw [HI]
    · intro k v kvs d W W2 rest hcan hW hW2 hfuel
      have hcv : canonV v := hcan.1
      conv_lhs => rw [parseMembers.eq_def]
      simp only []
      rw [skipWs_ws_append W _ hW, printStr_cons, skipWs_cons_not _ _ (by decide)]
      simp only []
      rw [if_pos trivial]
      rw [parseStrBody_print k (':' :: ' ' :: (printVal v d ++
        (membersTail kvs d ++ '\n' :: (W2 ++ rcurl :: rest))))]
      simp only []
      rw [skipWs_cons_not _ _ (by decide)]
      simp only []
      rw [if_pos trivial]
      have HV := IHval v d [' '] (membersTail kvs d ++ '\n' :: (W2 ++ rcurl :: rest)) hcv
        (by decide) (membersTail_noDigit kvs d (W2 ++ rcurl :: rest)) (by omega)
      simp only [List.cons_append, List.nil_append] at HV
      rw [HV]
      simp only []
      cases kvs with
      | nil =>
        rw [show membersTail JObj.nil d = [] from rfl, List.nil_append]
        rw [show ('\n' :: (W2 ++ (rcurl :: rest))) = ('\n' :: W2) ++ (rcurl :: rest) from rfl]
        rw [skipWs_ws_append _ _ (nl_ws_cons W2 hW2), skipWs_cons_not _ _ (by decide)]
        simp only []
        rw [if_neg (by decide : ¬(rcurl = ',')), if_pos trivial]
      | cons k2 v2 kvs2 =>
        rw [show membersTail (JObj.cons k2 v2 kvs2) d
          = ',' :: '\n' :: printMembers (.cons k2 v2 kvs2) d from rfl] at hfuel ⊢
        rw [printMembers_cons] at hfuel ⊢
        simp only [List.length_cons, List.length_append] at hfuel
        simp only [List.cons_append, List.append_assoc]
        rw [skipWs_cons_not _ _ (by decide)]
        simp only []
        rw [if_pos trivial]
        have HM := IHmembers k2 v2 kvs2 d ('\n' :: ind d) W2 rest hcan.2.2 (nl_ind_ws d) hW2
          (by have h1 := printVal_len_pos v d; have h2 := printVal_len_pos v2 d; omega)
        simp only [List.cons_append, List.append_assoc] at HM
        rw [HM]

/-- Helper: a failure outcome with a non-empty message satisfies the
value-parser invariant. -/
theorem goodV_error (e : Str) (he : e ≠ []) : GoodV (.error e) := by
  refine ⟨?_, ?_⟩
  · intro v r h
    exact absurd h (by simp)
  · intro e2 h
    injection h with h1
    rw [← h1]
    exact he

/-- Helper: a success outcome with a canonical value satisfies the
value-parser invariant. -/
theorem goodV_ok (v : JVal) (r : Str) (hv : canonV v) : GoodV (.ok (v, r)) := by
  refine ⟨?_, ?_⟩
  · intro v2 r2 h
    injection h with h1
    injection h1 with h2 h3
    rw [← h2]
    exact hv
  · intro e h
    exact absurd h (by simp)

/-- Helper: a failure outcome with a non-empty message satisfies the
element-parser invariant. -/
theorem goodL_error (e : Str) (he : e ≠ []) : GoodL (.error e) := by
  refine ⟨?_, ?_⟩
  · intro vs r h
    exact absurd h (by simp)
  · intro e2 h
    injection h with h1
    rw [← h1]
    exact he

/-- Helper: a success outcome with canonical elements satisfies the
element-parser invariant. -/
theorem goodL_ok (vs : JList) (r : Str) (hv : canonL vs) : GoodL (.ok (vs, r)) := by
  refine ⟨?_, ?_⟩
  · intro vs2 r2 h
    injection h with h1
    injection h1 with h2 h3
    rw [← h2]
    exact hv
  · intro e h
    exact absurd h (by simp)

/-- Helper: a failure outcome with a non-empty message satisfies the
member-parser invariant. -/
theorem goodO_error (e : Str) (he : e ≠ []) : GoodO (.error e) := by
  refine ⟨?_, ?_⟩
  · intro kvs r h
    exact absurd h (by simp)
  · intro e2 h
    injection h with h1
    rw [← h1]
    exact he

/-- Helper: a success outcome with canonical member values satisfies the
member-parser invariant. -/
theorem goodO_ok (kvs : JObj) (r : Str) (hv : valuesCanonO kvs) : GoodO (.ok (kvs, r)) := by
  refine ⟨?_, ?_⟩
  · intro kvs2 r2 h
    injection h with h1
    injection h1 with h2 h3
    rw [← h2]
    exact hv
  · intro e h
    exact absurd h (by simp)

/-- Helper: a number-parse failure message is never empty. -/
theorem parseNum_err (s e : Str) (h : parseNum s = .error e) : e ≠ [] := by
  simp only [parseNum] at h
  split at h <;> split at h
  all_goals try split at h
  all_goals first
    | (injection h with h1; rw [← h1]; decide)
    | simp at h

/-- Helper: a string-body-parse failure message is never empty. -/
theorem parseStrBody_err : ∀ (s e : Str), parseStrBody s = .error e → e ≠ []
  | [], e, h => by
    rw [show parseStrBody [] = .error (strL "unexpected end of JSON input") from by
      conv_lhs => rw [parseStrBody.eq_def]] at h
    injection h with h1
    rw [← h1]
    decide
  | c :: rest, e, h => by
    rw [parseStrBody.eq_def] at h
    simp only [] at h
    split at h
    · simp at h
    · split at h
      · cases rest with
        | nil =>
          simp only [] at h
          injection h with h1
          rw [← h1]
          decide
        | cons e2 rest2 =>
          simp only [] at h
          cases hu : unescapeChar e2 with
          | none =>
            rw [hu] at h
            simp only [] at h
            injection h with h1
            rw [← h1]
            decide
          | some ch =>
            rw [hu] at h
            simp only [] at h
            cases hp : parseStrBody rest2 with
            | error m =>
              rw [hp] at h
              simp only [] at h
              injection h with h1
              rw [← h1]
              exact parseStrBody_err rest2 m hp
            | ok p =>
              obtain ⟨body, r⟩ := p
              rw [hp] at h
              simp only [] at h
              simp at h
      · cases hp : parseStrBody rest with
        | error m =>
          rw [hp] at h
          simp only [] at h
          injection h with h1
          rw [← h1]
          exact parseStrBody_err rest m hp
        | ok p =>
          obtain ⟨body, r⟩ := p
          rw [hp] at h
          simp only [] at h
          simp at h

/-- Every parser outcome is good: successes are canonical (object members
key-sorted at every level, by construction through `canonMap`) and
failure messages are non-empty, at every fuel. -/
theorem parse_good : ∀ fuel : Nat,
    (∀ s, GoodV (parseVal fuel s)) ∧ (∀ s, GoodL (parseElems fuel s)) ∧
      (∀ s, GoodO (parseMembers fuel s))
  | 0 => by
    refine ⟨?_, ?_, ?_⟩
    · intro s
      rw [parseVal.eq_def]
      simp only []
      exact goodV_error _ (by decide)
    · intro s
      rw [parseElems.eq_def]
      simp only []
      exact goodL_error _ (by decide)
    · intro s
      rw [parseMembers.eq_def]
      simp only []
      exact goodO_error _ (by decide)
  | F + 1 => by
    obtain ⟨IHv, IHe, IHm⟩ := parse_good F
    refine ⟨?_, ?_, ?_⟩
    · intro s
      rw [parseVal.eq_def]
      simp only []
      rcases hs : skipWs s with _ | ⟨c, rest⟩
      · simp only []
        exact goodV_error _ (by decide)
      · simp only []
        split
        · split
          · exact goodV_ok _ _ trivial
          · exact goodV_error _ (by decide)
        · split
          · split
            · exact goodV_ok _ _ trivial
            · exact goodV_error _ (by decide)
          · split
            · split
              · exact goodV_ok _ _ trivial
              · exact goodV_error _ (by decide)
            · split
              · cases hsb : parseStrBody rest with
                | error m =>
                  simp only []
                  exact goodV_error m (parseStrBody_err rest m hsb)
                | ok p =>
                  obtain ⟨body, r⟩ := p
                  simp only []
                  exact goodV_ok _ _ trivial
              · split
                · cases hn : parseNum (c :: rest) with
                  | error m =>
                    simp only []
                    exact goodV_error m (parseNum_err _ m hn)
                  | ok p =>
                    obtain ⟨n, r⟩ := p
                    simp only []
                    exact goodV_ok _ _ trivial
                · split
                  · rcases hs2 : skipWs rest with _ | ⟨c2, rest2⟩
                    · simp only []
                      exact goodV_error _ (by decide)
                    · simp only []
                      split
                      · exact goodV_ok _ _ trivial
                      · cases he : parseElems F (c2 :: rest2) with
                        | error m =>
                          simp only []
                          exact goodV_error m ((IHe (c2 :: rest2)).2 m he)
                        | ok q =>
                          obtain ⟨vs, r2⟩ := q
                          simp only []
                          exact goodV_ok _ _ ((IHe (c2 :: rest2)).1 vs r2 he)
                  · split
                    · rcases hs2 : skipWs rest with _ | ⟨c2, rest2⟩
                      · simp only []
                        exact goodV_error _ (by decide)
                      · simp only []
                        split
                        · exact goodV_ok _ _ trivial
                        · cases hm : parseMembers F (c2 :: rest2) with
                          | error m =>
                            simp only []
                            exact goodV_error m ((IHm (c2 :: rest2)).2 m hm)
                          | ok q =>
                            obtain ⟨kvs, r2⟩ := q
                            simp only []
                            exact goodV_ok _ _
                              (canonMap_canon kvs ((IHm (c2 :: rest2)).1 kvs r2 hm))
                    · exact goodV_error _ (by decide)
    · intro s
      rw [parseElems.eq_def]
      simp only []
      cases hv : parseVal F s with
      | error m =>
        simp only []
        exact goodL_error m ((IHv s).2 m hv)
      | ok p =>
        obtain ⟨v, r⟩ := p
        have hcv : canonV v := (IHv s).1 v r hv
        simp only []
        rcases hs : skipWs r with _ | ⟨c, rest⟩
        · simp only []
          exact goodL_error _ (by decide)
        · simp only []
          split
          · cases he : parseElems F rest with
            | error m =>
              simp only []
              exact goodL_error m ((IHe rest).2 m he)
            | ok q =>
              obtain ⟨vs, r2⟩ := q
              simp only []
              exact goodL_ok _ _ ⟨hcv, (IHe rest).1 vs r2 he⟩
          · split
            · exact goodL_ok _ _ ⟨hcv, trivial⟩
            · exact goodL_error _ (by decide)
    · intro s
      rw [parseMembers.eq_def]
      simp only []
      rcases hs : skipWs s with _ | ⟨c, rest⟩
      · simp only []
        exact goodO_error _ (by decide)
      · simp only []
        split
        · cases hsb : parseStrBody rest with
          | error m =>
            simp only []
            exact goodO_error m (parseStrBody_err rest m hsb)
          | ok p =>
            obtain ⟨key, r⟩ := p
            simp only []
            rcases hs2 : skipWs r with _ | ⟨c2, rest2⟩
            · simp only []
              exact goodO_error _ (by decide)
            · simp only []
              split
              · cases hv : parseVal F rest2 with
                | error m =>
                  simp only []
                  exact goodO_error m ((IHv rest2).2 m hv)
                | ok q =>
                  obtain ⟨v, r2⟩ := q
                  have hcv : canonV v := (IHv rest2).1 v r2 hv
                  simp only []
                  rcases hs3 : skipWs r2 with _ | ⟨c3, rest3⟩
                  · simp only []
                    exact goodO_error _ (by decide)
                  · simp only []
                    split
                    · cases hm : parseMembers F rest3 with
                      | error m =>
                        simp only []
                        exact goodO_error m ((IHm rest3).2 m hm)
                      | ok w =>
                        obtain ⟨kvs, r3⟩ := w
                        simp only []
                        exact goodO_ok _ _ ⟨hcv, (IHm rest3).1 kvs r3 hm⟩
                    · split
                      · exact goodO_ok _ _ ⟨hcv, trivial⟩
                      · exact goodO_error _ (by decide)
              · exact goodO_error _ (by decide)
        · exact goodO_error _ (by decide)

/-- Helper: a value decoded by `parseJSON` is canonical. -/
theorem parseJSON_ok_canon (s : Str) (v : JVal) (h : parseJSON s = .ok v) : canonV v := by
  rw [parseJSON] at h
  cases hv : parseVal (s.length + 1) s with
  | error m =>
    rw [hv] at h
    simp at h
  | ok p =>
    obtain ⟨v2, r⟩ := p
    rw [hv] at h
    simp only [] at h
    split at h
    · injection h with h1
      rw [← h1]
      exact ((parse_good (s.length + 1)).1 s).1 v2 r hv
    · simp at h

/-- Helper: a `parseJSON` failure message is never empty. -/
theorem parseJSON_err_ne (s e : Str) (h : parseJSON s = .error e) : e ≠ [] := by
  rw [parseJSON] at h
  cases hv : parseVal (s.length + 1) s with
  | error m =>
    rw [hv] at h
    simp only [] at h
    injection h with h1
    rw [← h1]
    exact ((parse_good (s.length + 1)).1 s).2 m hv
  | ok p =>
    obtain ⟨v2, r⟩ := p
    rw [hv] at h
    simp only [] at h
    split at h
    · simp at h
    · injection h with h1
      rw [← h1]
      decide

/-- Helper: `parseJSON` inverts the two-space pretty-printer on canonical
values. -/
theorem parseJSON_print (v : JVal) (hv : canonV v) : parseJSON (printVal v 0) = .ok v := by
  have H := (RT_all ((printVal v 0).length + 1)).1 v 0 [] [] hv
    (by intro a ha; exact absurd ha (List.not_mem_nil a))
    (by intro c hc; simp at hc)
    (by omega)
  simp only [List.nil_append, List.append_nil] at H
  rw [parseJSON, H]
  rfl

/-- C7: for every json-language block the reformat backend spawns no
process — the dispatcher outcome is the same normal Result under any
execution oracle, python file-system environment, GOOS and backend
configuration; if the code body parses, the output is the value
serialized with two-space indentation (`printVal · 0`), which parses back
to the same value, with exit code 0; if parsing fails, the output is the
parser's non-empty failure message with exit code 1. -/
theorem run_json_backend (exec exec2 : ExecEnv) (pe pe2 : PyEnv)
    (sortFn : List Candidate → List Candidate) (g g2 : Bool) (now : Str)
    (doc : Str) (cursor : Int) (cfg cfg2 : RunBlockConfig) (b : Block)
    (hpick : PickBlockWith sortFn (ParseBlocks doc) cursor = some b)
    (hjson : toLowerStr b.Language = strL "json") :
    ∃ res : Result,
      RunModel exec pe sortFn g none now doc cursor cfg = .ok res ∧
      RunModel exec2 pe2 sortFn g2 none now doc cursor cfg2 = .ok res ∧
      res.Language = strL "json" ∧ res.RanAt = now ∧ res.BlockEnd = b.End ∧
      ((∃ v, parseJSON b.Code = .ok v ∧ res.Output = printVal v 0 ∧ res.ExitCode = 0 ∧
        parseJSON (res.Output) = .ok v) ∨
       (∃ e, parseJSON b.Code = .error e ∧ res.Output = e ∧ e ≠ [] ∧ res.ExitCode = 1)) := by
  have hrun : ∀ (ex : ExecEnv) (p : PyEnv) (gg : Bool) (cf : RunBlockConfig),
      RunModel ex p sortFn gg none now doc cursor cf
        = match prettyJSON b.Code with
          | .error e => .ok (Result.mk (strL "json") e 1 now b.End)
          | .ok pretty => .ok (Result.mk (strL "json") pretty 0 now b.End) := by
    intro ex p gg cf
    rw [RunModel, pick_some_not_empty hpick, hpick]
    simp only [hjson]
    rw [if_neg (by decide), if_neg (by decide), if_pos trivial]
    rfl
  cases hp : prettyJSON b.Code with
  | error e =>
    refine ⟨Result.mk (strL "json") e 1 now b.End, ?_, ?_, rfl, rfl, rfl, ?_⟩
    · rw [hrun exec pe g cfg, hp]
    · rw [hrun exec2 pe2 g2 cfg2, hp]
    · refine .inr ⟨e, ?_, rfl, ?_, rfl⟩
      · rw [prettyJSON] at hp
        cases hj : parseJSON b.Code with
        | error m =>
          rw [hj] at hp
          simp only [] at hp
          injection hp with h1
          rw [h1]
        | ok v =>
          rw [hj] at hp
          simp at hp
      · rw [prettyJSON] at hp
        cases hj : parseJSON b.Code with
        | error m =>
          rw [hj] at hp
          simp only [] at hp
          injection hp with h1
          rw [← h1]
          exact parseJSON_err_ne _ m hj
        | ok v =>
          rw [hj] at hp
          simp at hp
  | ok pretty =>
    refine ⟨Result.mk (strL "json") pretty 0 now b.End, ?_, ?_, rfl, rfl, rfl, ?_⟩
    · rw [hrun exec pe g cfg, hp]
    · rw [hrun exec2 pe2 g2 cfg2, hp]
    · rw [prettyJSON] at hp
      cases hj : parseJSON b.Code with
      | error m =>
        rw [hj] at hp
        simp at hp
      | ok v =>
        rw [hj] at hp
        simp only [] at hp
        injection hp with h1
        refine .inl ⟨v, rfl, by rw [← h1], rfl, ?_⟩
        rw [← h1]
        exact parseJSON_print v (parseJSON_ok_canon b.Code v hj)

/-- Witness for C7 at a concrete json block: the same Result under two
different oracles, GOOS values and configurations, exercising the
successful-parse disjunct. -/
theorem run_json_backend_witness :
    ∃ res : Result,
      RunModel execNull peNull id false none (strL "2026-01-01T00:00:00Z")
          (strL "```json\n\x7b\"a\":1\x7d\n```\n") 0 cfgNull = .ok res ∧
      RunModel execShellTimeout peNull id true none (strL "2026-01-01T00:00:00Z")
          (strL "```json\n\x7b\"a\":1\x7d\n```\n") 0
          { PythonBin := strL "py", Shell := strL "zsh", SQLCmd := strL "psql" } = .ok res ∧
      res.Language = strL "json" ∧ res.RanAt = strL "2026-01-01T00:00:00Z" ∧
      res.BlockEnd = 20 ∧
      ((∃ v, parseJSON (strL "\x7b\"a\":1\x7d") = .ok v ∧ res.Output = printVal v 0 ∧
        res.ExitCode = 0 ∧ parseJSON (res.Output) = .ok v) ∨
       (∃ e, parseJSON (strL "\x7b\"a\":1\x7d") = .error e ∧ res.Output = e ∧ e ≠ [] ∧
        res.ExitCode = 1)) :=
  run_json_backend execNull execShellTimeout peNull peNull id false true
    (strL "2026-01-01T00:00:00Z") (strL "```json\n\x7b\"a\":1\x7d\n```\n") 0 cfgNull
    { PythonBin := strL "py", Shell := strL "zsh", SQLCmd := strL "psql" }
    { Language := strL "json", Code := strL "\x7b\"a\":1\x7d",
      Start := 0, End := 20, CodeStart := 8, CodeEnd := 16 }
    (by decide) (by decide)

end Theorems

end Margin
